import Mathlib

/-!
Verification of mitogen/parent.py: a shallow embedding of the route-monitor
protocol, stream lifecycle, and bootstrap helpers of the parent-side
connection fabric, together with theorems settling the specified properties.

Strings that travel on the wire (route payloads, remote names) are modelled
as `List Char`; machine integers are `Int`/`Nat` (context ids are small and
never overflow in the source).
-/

namespace Mitogen

/-! ### Python `str`/`int` on ASCII decimals

`RouteMonitor.propagate` builds payloads with `str(target_id)` and
`'%s:%s' % (target_id, name)`; `_on_add_route`/`_on_del_route` parse them
with `int()` and `str.partition(':')`.  We embed decimal printing and
parsing of integers, and partitioning at the first colon. -/

/-- Decimal digit value to its ASCII character, as used by Python `str(int)`. -/
def digitChar (d : Nat) : Char := Char.ofNat (48 + d)

/-- ASCII character to its decimal digit value, as used by `int(str)`. -/
def charDigit (c : Char) : Nat := c.toNat - 48

/-- Fuel-indexed accumulator loop producing the decimal digits of `n`,
least-significant digit pushed first; fuel `n + 1` always suffices. -/
def ntcAux : Nat → Nat → List Char → List Char
  | 0, _, acc => acc
  | fuel + 1, n, acc =>
    if n < 10 then digitChar (n % 10) :: acc
    else ntcAux fuel (n / 10) (digitChar (n % 10) :: acc)

/-- Decimal representation of a natural number, as Python `str(n)`. -/
def natToChars (n : Nat) : List Char := ntcAux (n + 1) n []

/-- Python `str(i)` for an integer. -/
def pyStrInt (i : Int) : List Char :=
  if i < 0 then '-' :: natToChars i.natAbs else natToChars i.natAbs

/-- Value of a most-significant-first digit string. -/
def digitsVal (cs : List Char) : Nat := cs.foldl (fun a c => 10 * a + charDigit c) 0

/-- All characters are ASCII digits. -/
def allDigits (cs : List Char) : Bool := cs.all (fun c => c.isDigit)

/-- Parse a nonempty all-digit string; `none` models a `ValueError`. -/
def parseDigits (cs : List Char) : Option Nat :=
  if cs.isEmpty || !allDigits cs then none else some (digitsVal cs)

/-- Strip leading and trailing whitespace, as Python `int()` does. -/
def stripWS (cs : List Char) : List Char :=
  ((cs.dropWhile Char.isWhitespace).reverse.dropWhile Char.isWhitespace).reverse

/-- Python `int(s)` on an ASCII string: strip whitespace, optional sign,
decimal digits; `none` models the `ValueError` raised on malformed input. -/
def pyInt (cs : List Char) : Option Int :=
  match stripWS cs with
  | [] => none
  | c :: rest =>
    if c = '-' then (parseDigits rest).map (fun n => -(n : Int))
    else if c = '+' then (parseDigits rest).map (fun n => (n : Int))
    else (parseDigits (c :: rest)).map (fun n => (n : Int))

/-- Python `s.partition(':')` restricted to the two components the handlers
use: the part before the first colon and the part after it (empty when no
colon occurs). -/
def partColon : List Char → List Char × List Char
  | [] => ([], [])
  | c :: t =>
    if c = ':' then ([], t)
    else
      let p := partColon t
      (c :: p.1, p.2)

theorem charDigit_digitChar {d : Nat} (h : d < 10) : charDigit (digitChar d) = d := by
  interval_cases d <;> decide

theorem isDigit_digitChar {d : Nat} (h : d < 10) : (digitChar d).isDigit = true := by
  interval_cases d <;> decide

theorem digitsVal_from (cs : List Char) :
    ∀ a : Nat, cs.foldl (fun a c => 10 * a + charDigit c) a = a * 10 ^ cs.length + digitsVal cs := by
  induction cs with
  | nil => intro a; simp [digitsVal]
  | cons c t ih =>
    intro a
    simp only [List.foldl_cons, List.length_cons, digitsVal]
    rw [ih (10 * a + charDigit c), ih (10 * 0 + charDigit c)]
    ring

theorem ntc_val : ∀ fuel n acc, n < fuel →
    digitsVal (ntcAux fuel n acc) = n * 10 ^ acc.length + digitsVal acc := by
  intro fuel
  induction fuel with
  | zero => intro n acc h; omega
  | succ f ih =>
    intro n acc h
    by_cases h10 : n < 10
    · simp only [ntcAux, h10, if_true]
      simp only [digitsVal, List.foldl_cons]
      rw [digitsVal_from]
      rw [Nat.mod_eq_of_lt h10, charDigit_digitChar h10]
      simp [digitsVal]
    · have hlt : n / 10 < n := Nat.div_lt_self (by omega) (by omega)
      have hf : n / 10 < f := by omega
      simp only [ntcAux, h10, if_false]
      rw [ih (n / 10) (digitChar (n % 10) :: acc) hf]
      simp only [List.length_cons, digitsVal, List.foldl_cons, Nat.mul_zero, Nat.zero_add]
      rw [digitsVal_from, charDigit_digitChar (Nat.mod_lt n (by omega)), pow_succ]
      simp only [digitsVal]
      generalize (10 : Nat) ^ acc.length = K
      generalize List.foldl (fun a c => 10 * a + charDigit c) 0 acc = F
      have hdm : 10 * (n / 10) + n % 10 = n := Nat.div_add_mod n 10
      have hK : n / 10 * (K * 10) + n % 10 * K = n * K := by
        calc n / 10 * (K * 10) + n % 10 * K
            = (10 * (n / 10) + n % 10) * K := by ring
          _ = n * K := by rw [hdm]
      linarith [hK]

theorem digitsVal_natToChars (n : Nat) : digitsVal (natToChars n) = n := by
  have := ntc_val (n + 1) n [] (by omega)
  simpa [natToChars, digitsVal] using this

theorem ntc_mem : ∀ fuel n acc c, c ∈ ntcAux fuel n acc →
    c ∈ acc ∨ ∃ m : Nat, m < 10 ∧ c = digitChar m := by
  intro fuel
  induction fuel with
  | zero => intro n acc c h; exact Or.inl h
  | succ f ih =>
    intro n acc c h
    simp only [ntcAux] at h
    by_cases h10 : n < 10
    · simp only [h10, if_true, List.mem_cons] at h
      rcases h with h | h
      · exact Or.inr ⟨n % 10, Nat.mod_lt n (by omega), h⟩
      · exact Or.inl h
    · simp only [h10, if_false] at h
      rcases ih (n / 10) _ c h with h | h
      · rcases List.mem_cons.mp h with h | h
        · exact Or.inr ⟨n % 10, Nat.mod_lt n (by omega), h⟩
        · exact Or.inl h
      · exact Or.inr h

theorem natToChars_mem {n : Nat} {c : Char} (h : c ∈ natToChars n) :
    ∃ m : Nat, m < 10 ∧ c = digitChar m := by
  rcases ntc_mem (n + 1) n [] c h with h | h
  · simp at h
  · exact h

theorem ntc_ne_nil_of_acc : ∀ fuel n acc, acc ≠ [] → ntcAux fuel n acc ≠ [] := by
  intro fuel
  induction fuel with
  | zero => intro n acc h; simpa [ntcAux] using h
  | succ f ih =>
    intro n acc _
    simp only [ntcAux]
    by_cases h10 : n < 10
    · simp [h10]
    · simp only [h10, if_false]
      exact ih (n / 10) _ (by simp)

theorem natToChars_ne_nil (n : Nat) : natToChars n ≠ [] := by
  unfold natToChars ntcAux
  by_cases h10 : n < 10
  · simp [h10]
  · simp only [h10, if_false]
    exact ntc_ne_nil_of_acc _ _ _ (by simp)

theorem natToChars_all_digits {n : Nat} {c : Char} (h : c ∈ natToChars n) : c.isDigit = true := by
  rcases natToChars_mem h with ⟨m, hm, rfl⟩
  exact isDigit_digitChar hm

theorem digit_not_ws {d : Nat} (h : d < 10) : (digitChar d).isWhitespace = false := by
  interval_cases d <;> decide

theorem digit_ne_colon {d : Nat} (h : d < 10) : digitChar d ≠ ':' := by
  interval_cases d <;> decide

theorem digit_ne_minus {d : Nat} (h : d < 10) : digitChar d ≠ '-' := by
  interval_cases d <;> decide

theorem digit_ne_plus {d : Nat} (h : d < 10) : digitChar d ≠ '+' := by
  interval_cases d <;> decide

theorem dropWhile_eq_self_of (p : Char → Bool) (l : List Char)
    (h : ∀ c ∈ l, p c = false) : l.dropWhile p = l := by
  cases l with
  | nil => rfl
  | cons c t => simp [List.dropWhile_cons, h c (by simp)]

theorem stripWS_eq_self {cs : List Char} (h : ∀ c ∈ cs, c.isWhitespace = false) :
    stripWS cs = cs := by
  unfold stripWS
  rw [dropWhile_eq_self_of _ _ h,
      dropWhile_eq_self_of _ _ (fun c hc => h c (List.mem_reverse.mp hc)),
      List.reverse_reverse]

theorem parseDigits_natToChars (n : Nat) : parseDigits (natToChars n) = some n := by
  unfold parseDigits
  have h1 : (natToChars n).isEmpty = false := by
    simp [List.isEmpty_iff, natToChars_ne_nil n]
  have h2 : allDigits (natToChars n) = true := by
    simp only [allDigits, List.all_eq_true]
    exact fun c hc => natToChars_all_digits hc
  simp [h1, h2, digitsVal_natToChars]

theorem natToChars_not_ws {n : Nat} {c : Char} (h : c ∈ natToChars n) :
    c.isWhitespace = false := by
  rcases natToChars_mem h with ⟨m, hm, rfl⟩
  exact digit_not_ws hm

theorem pyInt_cons (c : Char) (rest : List Char)
    (h : ∀ x ∈ c :: rest, x.isWhitespace = false) :
    pyInt (c :: rest) =
      if c = '-' then (parseDigits rest).map (fun n => -(n : Int))
      else if c = '+' then (parseDigits rest).map (fun n => (n : Int))
      else (parseDigits (c :: rest)).map (fun n => (n : Int)) := by
  unfold pyInt
  rw [stripWS_eq_self h]

/-- Parsing inverts printing: `int(str(i)) == i`. -/
theorem pyInt_pyStrInt (i : Int) : pyInt (pyStrInt i) = some i := by
  by_cases hneg : i < 0
  · have hs : pyStrInt i = '-' :: natToChars i.natAbs := by simp [pyStrInt, hneg]
    rw [hs, pyInt_cons _ _ (by
      intro x hx
      rcases List.mem_cons.mp hx with rfl | hx
      · decide
      · exact natToChars_not_ws hx)]
    rw [if_pos rfl, parseDigits_natToChars]
    show some (-(i.natAbs : Int)) = some i
    exact congrArg some (by omega)
  · have hs : pyStrInt i = natToChars i.natAbs := by simp [pyStrInt, hneg]
    rw [hs]
    rcases hsplit : natToChars i.natAbs with _ | ⟨c, rest⟩
    · exact absurd hsplit (natToChars_ne_nil _)
    · have hcmem : c ∈ natToChars i.natAbs := by rw [hsplit]; simp
      rcases natToChars_mem hcmem with ⟨m, hm, rfl⟩
      rw [pyInt_cons _ _ (by
        intro x hx
        rw [← hsplit] at hx
        exact natToChars_not_ws hx)]
      rw [if_neg (digit_ne_minus hm), if_neg (digit_ne_plus hm), ← hsplit,
        parseDigits_natToChars]
      show some ((i.natAbs : Int)) = some i
      exact congrArg some (by omega)

/-- Printing is injective (distinct ids have distinct payload texts). -/
theorem pyStrInt_injective : Function.Injective pyStrInt := by
  intro a b hab
  have := pyInt_pyStrInt a
  rw [hab, pyInt_pyStrInt b] at this
  exact (Option.some_inj.mp this).symm

theorem partColon_of_no_colon {cs : List Char} (h : ':' ∉ cs) : partColon cs = (cs, []) := by
  induction cs with
  | nil => rfl
  | cons c t ih =>
    have hc : c ≠ ':' := fun hc => h (hc ▸ List.mem_cons_self c t)
    have ht : ':' ∉ t := fun ht => h (List.mem_cons_of_mem c ht)
    simp [partColon, (by simpa using hc : ¬c = ':'), ih ht]

theorem partColon_append {a b : List Char} (h : ':' ∉ a) :
    partColon (a ++ ':' :: b) = (a, b) := by
  induction a with
  | nil => simp [partColon]
  | cons c t ih =>
    have hc : c ≠ ':' := fun hc => h (hc ▸ List.mem_cons_self c t)
    have ht : ':' ∉ t := fun ht => h (List.mem_cons_of_mem c ht)
    simp [partColon, (by simpa using hc : ¬c = ':'), ih ht]

theorem natToChars_no_colon (n : Nat) : ':' ∉ natToChars n := by
  intro h
  rcases natToChars_mem h with ⟨m, hm, hc⟩
  exact digit_ne_colon hm hc.symm

/-! ### Association lists

Python dictionaries (`Router._stream_by_id`, `Router._context_by_id`) are
modelled as association lists with unique-key semantics: assignment
replaces the entry for the key, `del` removes every entry for the key. -/

/-- Dictionary lookup `d.get(k)`. -/
def alGet {α β : Type} [DecidableEq α] : List (α × β) → α → Option β
  | [], _ => none
  | (k2, v) :: t, k => if k2 = k then some v else alGet t k

/-- Dictionary assignment `d[k] = v`. -/
def alSet {α β : Type} [DecidableEq α] : List (α × β) → α → β → List (α × β)
  | [], k, v => [(k, v)]
  | (k2, v2) :: t, k, v => if k2 = k then (k, v) :: t else (k2, v2) :: alSet t k v

/-- Dictionary deletion `del d[k]` (all entries for `k` are removed, matching
dict semantics where keys are unique). -/
def alErase {α β : Type} [DecidableEq α] (l : List (α × β)) (k : α) : List (α × β) :=
  l.filter (fun p => p.1 ≠ k)

theorem alGet_alSet_self {α β : Type} [DecidableEq α] (l : List (α × β)) (k : α) (v : β) :
    alGet (alSet l k v) k = some v := by
  induction l with
  | nil => simp [alGet, alSet]
  | cons p t ih =>
    rcases p with ⟨k2, v2⟩
    by_cases h : k2 = k
    · simp [alSet, alGet, h]
    · simp [alSet, alGet, h, ih]

theorem alGet_alErase_self {α β : Type} [DecidableEq α] (l : List (α × β)) (k : α) :
    alGet (alErase l k) k = none := by
  induction l with
  | nil => rfl
  | cons p t ih =>
    rcases p with ⟨k2, v2⟩
    by_cases h : k2 = k
    · simpa [alErase, alGet, h] using ih
    · simpa [alErase, alGet, h] using ih

theorem alGet_alErase_ne {α β : Type} [DecidableEq α] (l : List (α × β)) (k k2 : α)
    (h : k2 ≠ k) : alGet (alErase l k) k2 = alGet l k2 := by
  induction l with
  | nil => rfl
  | cons p t ih =>
    rcases p with ⟨k3, v3⟩
    simp only [alErase, ne_eq, decide_not] at ih ⊢
    by_cases h3 : k3 = k
    · subst h3
      have hne : ¬ k3 = k2 := fun hc => h hc.symm
      simp [alGet, hne, ih]
    · by_cases h32 : k3 = k2
      · simp [alGet, h3, h32, ih, h]
      · simp [alGet, h3, h32, ih]

/-! ### Route-monitor state

The mutable state that `RouteMonitor`, `Router` and the per-child `Stream`
objects share in mitogen/parent.py: stream objects (with their `remote_id`
and `routes` set), the router route table `_stream_by_id`, the context
table `_context_by_id` (context id with its current name), the process-wide
`mitogen.parent_id`, and whether the monitor has a parent context
(`RouteMonitor.parent is None` exactly at the master). -/

/-- Message handles registered by `RouteMonitor.__init__`. -/
inductive HandleK where
  | addRoute
  | delRoute
deriving DecidableEq

/-- The slice of a `mitogen.parent.Stream` the route monitor reads and
writes: its `remote_id` and its `routes` set. -/
structure StreamRec where
  remote_id : Int
  routes : List Int
deriving DecidableEq

/-- The slice of `mitogen.core.Message` the handlers read. -/
structure Msg where
  src_id : Int
  auth_id : Int
  data : List Char
  is_dead : Bool
deriving DecidableEq

/-- Router and route-monitor state.  Streams are given by identity (a `Nat`
key into `streams`); `stream_tbl` is `Router._stream_by_id`; `ctx_tbl` maps
a context id to the name of the created `Context` object. -/
structure RouterSt where
  parent_id : Option Int
  has_parent : Bool
  streams : List (Nat × StreamRec)
  stream_tbl : List (Int × Nat)
  ctx_tbl : List (Int × List Char)
deriving DecidableEq

/-- Handler policy `is_immediate_child`: accept only messages arriving from
the stream directly connected to their source. -/
def is_immediate_child (msg : Msg) (stream : StreamRec) : Bool :=
  msg.src_id == stream.remote_id

/-- The `remote_id` attribute of a stream object (total; in any state
reachable from the source every stream identity in use has a record). -/
def remoteOf (st : RouterSt) (sid : Nat) : Int :=
  ((alGet st.streams sid).map StreamRec.remote_id).getD 0

/-- The `routes` set of a stream object. -/
def routesOf (st : RouterSt) (sid : Nat) : List Int :=
  ((alGet st.streams sid).map StreamRec.routes).getD []

/-- `Router.stream_by_id`: the explicit route if any, else the route toward
the parent (`_stream_by_id.get(dst_id, _stream_by_id.get(mitogen.parent_id))`). -/
def streamById (st : RouterSt) (dst : Int) : Option Nat :=
  match alGet st.stream_tbl dst with
  | some sid => some sid
  | none =>
    match st.parent_id with
    | some p => alGet st.stream_tbl p
    | none => none

/-- `stream.routes.add(target_id)`. -/
def addStreamRoute (st : RouterSt) (sid : Nat) (tid : Int) : RouterSt :=
  match alGet st.streams sid with
  | none => st
  | some r =>
    let r2 := { r with routes := if tid ∈ r.routes then r.routes else r.routes ++ [tid] }
    { st with streams := alSet st.streams sid r2 }

/-- `stream.routes.discard(target_id)`. -/
def discardStreamRoute (st : RouterSt) (sid : Nat) (tid : Int) : RouterSt :=
  match alGet st.streams sid with
  | none => st
  | some r =>
    let r2 := { r with routes := r.routes.filter (fun x => x ≠ tid) }
    { st with streams := alSet st.streams sid r2 }

/-- `Router.add_route`: `_stream_by_id[target_id] = stream`. -/
def routerAddRoute (st : RouterSt) (tid : Int) (sid : Nat) : RouterSt :=
  { st with stream_tbl := alSet st.stream_tbl tid sid }

/-- `Router.del_route`: `del _stream_by_id[target_id]`, logging an error on
a missing key (`KeyError` is caught).  Returns the new state and the number
of error-log lines. -/
def routerDelRoute (st : RouterSt) (tid : Int) : RouterSt × Nat :=
  if (alGet st.stream_tbl tid).isSome then
    ({ st with stream_tbl := alErase st.stream_tbl tid }, 0)
  else (st, 1)

/-- `router.context_by_id(target_id).name = target_name`: create the
context on demand and set its name. -/
def ctxSetName (st : RouterSt) (tid : Int) (nm : List Char) : RouterSt :=
  { st with ctx_tbl := alSet st.ctx_tbl tid nm }

/-- `router.context_by_id(target_id, create=False)` is truthy. -/
def ctxExists (st : RouterSt) (tid : Int) : Bool :=
  (alGet st.ctx_tbl tid).isSome

/-- Payload text built by `RouteMonitor.propagate`: `str(target_id)`, or
`'%s:%s' % (target_id, name)` when the name is truthy (non-empty). -/
def encodeRoute (tid : Int) (name : List Char) : List Char :=
  if name.isEmpty then pyStrInt tid else pyStrInt tid ++ ':' :: name

/-- Messages sent upstream by `RouteMonitor.propagate`: nothing at the
master (`self.parent is None`), one message to the parent otherwise. -/
def propagateMsgs (st : RouterSt) (h : HandleK) (tid : Int) (name : List Char) :
    List (HandleK × List Char) :=
  if st.has_parent then [(h, encodeRoute tid name)] else []

/-- Result of running a handler: final state, messages sent upstream,
number of error-log lines, contexts on which a `disconnect` event was
fired, and whether the handler raised an exception. -/
structure HOut where
  st : RouterSt
  sent : List (HandleK × List Char)
  errlogs : Nat
  fired : List Int
  raised : Bool
deriving DecidableEq

/-- The `current.remote_id != mitogen.parent_id` duplicate-route test of
`_on_add_route` (`current` truthy iff the lookup returned a stream). -/
def addConflict (st : RouterSt) (cur : Option Nat) : Bool :=
  match cur with
  | none => false
  | some c => if st.parent_id = some (remoteOf st c) then false else true

/-- `RouteMonitor._on_add_route`. -/
def onAddRoute (st0 : RouterSt) (msg : Msg) : HOut :=
  if msg.is_dead then ⟨st0, [], 0, [], false⟩ else
  match pyInt (partColon msg.data).1 with
  | none => ⟨st0, [], 0, [], true⟩
  | some tid =>
    let tname := (partColon msg.data).2
    let st1 := ctxSetName st0 tid tname
    if addConflict st1 (streamById st1 tid) then ⟨st1, [], 1, [], false⟩
    else
      match streamById st1 msg.auth_id with
      | none => ⟨st1, [], 0, [], true⟩
      | some sid =>
        let st2 := addStreamRoute st1 sid tid
        let st3 := routerAddRoute st2 tid sid
        ⟨st3, propagateMsgs st3 HandleK.addRoute tid tname, 0, [], false⟩

/-- `RouteMonitor._on_del_route`. -/
def onDelRoute (st0 : RouterSt) (msg : Msg) : HOut :=
  if msg.is_dead then ⟨st0, [], 0, [], false⟩ else
  match pyInt msg.data with
  | none => ⟨st0, [], 0, [], true⟩
  | some tid =>
    if streamById st0 tid ≠ streamById st0 msg.auth_id then ⟨st0, [], 1, [], false⟩
    else
      match streamById st0 msg.auth_id with
      | none => ⟨st0, [], 0, [], true⟩
      | some sid =>
        let st1 := discardStreamRoute st0 sid tid
        let p := routerDelRoute st1 tid
        ⟨p.1, propagateMsgs p.1 HandleK.delRoute tid [], p.2,
          if ctxExists p.1 tid then [tid] else [], false⟩

/-- The loop body sequence of `RouteMonitor._on_stream_disconnect`: for each
route of the lost stream, delete it from the router table, propagate
`DEL_ROUTE`, and fire `disconnect` on the context when one exists. -/
def osdLoop (st : RouterSt) : List Int → RouterSt × List (HandleK × List Char) × Nat × List Int
  | [] => (st, [], 0, [])
  | tid :: rest =>
    let p := routerDelRoute st tid
    let sent := propagateMsgs p.1 HandleK.delRoute tid []
    let fired := if ctxExists p.1 tid then [tid] else []
    let q := osdLoop p.1 rest
    (q.1, sent ++ q.2.1, p.2 + q.2.2.1, fired ++ q.2.2.2)

/-- `RouteMonitor._on_stream_disconnect`. -/
def onStreamDisconnect (st : RouterSt) (sid : Nat) : HOut :=
  let q := osdLoop st (routesOf st sid)
  ⟨q.1, q.2.1, q.2.2.1, q.2.2.2, false⟩

@[simp] theorem ctxSetName_stream_tbl (st : RouterSt) (i : Int) (nm : List Char) :
    (ctxSetName st i nm).stream_tbl = st.stream_tbl := rfl

@[simp] theorem ctxSetName_streams (st : RouterSt) (i : Int) (nm : List Char) :
    (ctxSetName st i nm).streams = st.streams := rfl

@[simp] theorem ctxSetName_parent_id (st : RouterSt) (i : Int) (nm : List Char) :
    (ctxSetName st i nm).parent_id = st.parent_id := rfl

@[simp] theorem ctxSetName_has_parent (st : RouterSt) (i : Int) (nm : List Char) :
    (ctxSetName st i nm).has_parent = st.has_parent := rfl

@[simp] theorem ctxSetName_ctx_tbl (st : RouterSt) (i : Int) (nm : List Char) :
    (ctxSetName st i nm).ctx_tbl = alSet st.ctx_tbl i nm := rfl

@[simp] theorem streamById_ctxSetName (st : RouterSt) (i : Int) (nm : List Char) (d : Int) :
    streamById (ctxSetName st i nm) d = streamById st d := rfl

@[simp] theorem remoteOf_ctxSetName (st : RouterSt) (i : Int) (nm : List Char) (c : Nat) :
    remoteOf (ctxSetName st i nm) c = remoteOf st c := rfl

@[simp] theorem addConflict_ctxSetName (st : RouterSt) (i : Int) (nm : List Char)
    (cur : Option Nat) : addConflict (ctxSetName st i nm) cur = addConflict st cur := rfl

@[simp] theorem addStreamRoute_ctx_tbl (st : RouterSt) (sid : Nat) (tid : Int) :
    (addStreamRoute st sid tid).ctx_tbl = st.ctx_tbl := by
  unfold addStreamRoute
  cases alGet st.streams sid <;> rfl

@[simp] theorem addStreamRoute_has_parent (st : RouterSt) (sid : Nat) (tid : Int) :
    (addStreamRoute st sid tid).has_parent = st.has_parent := by
  unfold addStreamRoute
  cases alGet st.streams sid <;> rfl

@[simp] theorem discardStreamRoute_ctx_tbl (st : RouterSt) (sid : Nat) (tid : Int) :
    (discardStreamRoute st sid tid).ctx_tbl = st.ctx_tbl := by
  unfold discardStreamRoute
  cases alGet st.streams sid <;> rfl

@[simp] theorem routerAddRoute_ctx_tbl (st : RouterSt) (tid : Int) (sid : Nat) :
    (routerAddRoute st tid sid).ctx_tbl = st.ctx_tbl := rfl

@[simp] theorem routerAddRoute_has_parent (st : RouterSt) (tid : Int) (sid : Nat) :
    (routerAddRoute st tid sid).has_parent = st.has_parent := rfl

@[simp] theorem routerDelRoute_ctx_tbl (st : RouterSt) (tid : Int) :
    (routerDelRoute st tid).1.ctx_tbl = st.ctx_tbl := by
  unfold routerDelRoute
  by_cases h : (alGet st.stream_tbl tid).isSome <;> simp [h]

@[simp] theorem routerDelRoute_has_parent (st : RouterSt) (tid : Int) :
    (routerDelRoute st tid).1.has_parent = st.has_parent := by
  unfold routerDelRoute
  by_cases h : (alGet st.stream_tbl tid).isSome <;> simp [h]

@[simp] theorem routerDelRoute_streams (st : RouterSt) (tid : Int) :
    (routerDelRoute st tid).1.streams = st.streams := by
  unfold routerDelRoute
  by_cases h : (alGet st.stream_tbl tid).isSome <;> simp [h]

theorem routerDelRoute_none (st : RouterSt) (tid : Int) :
    alGet (routerDelRoute st tid).1.stream_tbl tid = none := by
  unfold routerDelRoute
  by_cases h : (alGet st.stream_tbl tid).isSome
  · simp [h, alGet_alErase_self]
  · simp only [h, if_false]
    exact Option.not_isSome_iff_eq_none.mp h

theorem routerDelRoute_other (st : RouterSt) (tid tid2 : Int) (h : tid2 ≠ tid) :
    alGet (routerDelRoute st tid).1.stream_tbl tid2 = alGet st.stream_tbl tid2 := by
  unfold routerDelRoute
  by_cases hh : (alGet st.stream_tbl tid).isSome
  · simp [hh, alGet_alErase_ne _ _ _ h]
  · simp [hh]

/-! ### Concrete fixtures used by the witness theorems -/

/-- Two child streams: stream 1 with remote id 5, stream 2 with remote id 9
(routing toward context 8 as well). -/
def exStreams : List (Nat × StreamRec) := [(1, ⟨5, [7]⟩), (2, ⟨9, [8]⟩)]

/-- A non-master node (parent id 0) with routes for 5, 9 and 8 and a context
record for 8. -/
def exSt : RouterSt := ⟨some 0, true, exStreams, [(5, 1), (9, 2), (8, 2)], [(8, ['b'])]⟩

/-- An `ADD_ROUTE` for target 8 (payload `8:x`) arriving from stream 1. -/
def exMsgAdd : Msg := ⟨5, 5, ['8', ':', 'x'], false⟩

/-- A `DEL_ROUTE` for target 8 (payload `8`) arriving from stream 1, whose
registered route is stream 2. -/
def exMsgDel : Msg := ⟨5, 5, ['8'], false⟩

/-- C1: an accepted (non-tombstone) `ADD_ROUTE` whose target already has a
registered route via a stream whose remote id is not the parent id is
rejected by `_on_add_route`: one error is logged, the router route table and
every stream route-set are unchanged, and nothing is propagated upstream. -/
theorem add_route_conflict_ignored (st : RouterSt) (msg : Msg) (tid : Int) (c : Nat)
    (hdead : msg.is_dead = false)
    (hparse : pyInt (partColon msg.data).1 = some tid)
    (hcur : streamById st tid = some c)
    (hconf : st.parent_id ≠ some (remoteOf st c)) :
    (onAddRoute st msg).st.stream_tbl = st.stream_tbl ∧
    (onAddRoute st msg).st.streams = st.streams ∧
    (onAddRoute st msg).sent = [] ∧
    (onAddRoute st msg).errlogs = 1 := by
  have hconfB : addConflict st (streamById st tid) = true := by
    rw [hcur]
    simp [addConflict, hconf]
  simp [onAddRoute, hdead, hparse, hconfB]

/-- Witness for C1 at the concrete fixture state. -/
theorem add_route_conflict_ignored_witness :
    (onAddRoute exSt exMsgAdd).st.stream_tbl = exSt.stream_tbl ∧
    (onAddRoute exSt exMsgAdd).st.streams = exSt.streams ∧
    (onAddRoute exSt exMsgAdd).sent = [] ∧
    (onAddRoute exSt exMsgAdd).errlogs = 1 :=
  add_route_conflict_ignored exSt exMsgAdd 8 2 rfl (by decide) (by decide) (by decide)

/-- C2: a `DEL_ROUTE` whose registered stream (per `Router.stream_by_id`)
differs from the stream the message arrived on is logged and ignored by
`_on_del_route`: the state is unchanged, nothing is propagated, and no
`disconnect` event fires. -/
theorem del_route_mismatch_ignored (st : RouterSt) (msg : Msg) (tid : Int)
    (hdead : msg.is_dead = false)
    (hparse : pyInt msg.data = some tid)
    (hmis : streamById st tid ≠ streamById st msg.auth_id) :
    (onDelRoute st msg).st = st ∧
    (onDelRoute st msg).sent = [] ∧
    (onDelRoute st msg).fired = [] ∧
    (onDelRoute st msg).errlogs = 1 := by
  simp [onDelRoute, hdead, hparse, hmis]

/-- Witness for C2 at the concrete fixture state. -/
theorem del_route_mismatch_ignored_witness :
    (onDelRoute exSt exMsgDel).st = exSt ∧
    (onDelRoute exSt exMsgDel).sent = [] ∧
    (onDelRoute exSt exMsgDel).fired = [] ∧
    (onDelRoute exSt exMsgDel).errlogs = 1 :=
  del_route_mismatch_ignored exSt exMsgDel 8 rfl (by decide) (by decide)

/-- C10: an `ADD_ROUTE` that passes the immediate-child policy and is not a
tombstone renames the target context to the payload name before the
duplicate-route check runs, so even a message rejected as a duplicate route
renames the existing context (and the rejection still logs an error and
propagates nothing). -/
theorem add_route_renames_context (st : RouterSt) (msg : Msg) (tid : Int) (arr : StreamRec)
    (_hpol : is_immediate_child msg arr = true)
    (hdead : msg.is_dead = false)
    (hparse : pyInt (partColon msg.data).1 = some tid) :
    alGet (onAddRoute st msg).st.ctx_tbl tid = some (partColon msg.data).2 ∧
    (addConflict st (streamById st tid) = true →
      (onAddRoute st msg).sent = [] ∧ (onAddRoute st msg).errlogs = 1) := by
  constructor
  · by_cases hc : addConflict st (streamById st tid) = true
    · simp [onAddRoute, hdead, hparse, hc, alGet_alSet_self]
    · rcases harr : streamById st msg.auth_id with _ | sid
      · simp [onAddRoute, hdead, hparse, hc, harr, alGet_alSet_self]
      · simp [onAddRoute, hdead, hparse, hc, harr, alGet_alSet_self]
  · intro hc
    constructor
    · simp [onAddRoute, hdead, hparse, hc]
    · simp [onAddRoute, hdead, hparse, hc]

/-- Witness for C10 at the concrete fixture state: the duplicate `ADD_ROUTE`
is rejected, yet context 8 is renamed from `b` to `x`. -/
theorem add_route_renames_context_witness :
    alGet (onAddRoute exSt exMsgAdd).st.ctx_tbl 8 = some (partColon exMsgAdd.data).2 ∧
    (addConflict exSt (streamById exSt 8) = true →
      (onAddRoute exSt exMsgAdd).sent = [] ∧ (onAddRoute exSt exMsgAdd).errlogs = 1) :=
  add_route_renames_context exSt exMsgAdd 8 ⟨5, [7]⟩ (by decide) rfl (by decide)

/-! ### Lemmas about the stream-disconnect loop -/

@[simp] theorem discardStreamRoute_has_parent (st : RouterSt) (sid : Nat) (tid : Int) :
    (discardStreamRoute st sid tid).has_parent = st.has_parent := by
  unfold discardStreamRoute
  cases alGet st.streams sid <;> rfl

theorem osdLoop_ctx_tbl (st : RouterSt) (l : List Int) :
    (osdLoop st l).1.ctx_tbl = st.ctx_tbl := by
  induction l generalizing st with
  | nil => rfl
  | cons t rest ih => simp [osdLoop, ih, routerDelRoute_ctx_tbl]

theorem osdLoop_has_parent (st : RouterSt) (l : List Int) :
    (osdLoop st l).1.has_parent = st.has_parent := by
  induction l generalizing st with
  | nil => rfl
  | cons t rest ih => simp [osdLoop, ih, routerDelRoute_has_parent]

theorem osdLoop_none_stable (st : RouterSt) (l : List Int) (x : Int)
    (h : alGet st.stream_tbl x = none) :
    alGet (osdLoop st l).1.stream_tbl x = none := by
  induction l generalizing st with
  | nil => exact h
  | cons t rest ih =>
    simp only [osdLoop]
    apply ih
    by_cases hx : x = t
    · subst hx
      exact routerDelRoute_none st x
    · rw [routerDelRoute_other st t x hx]
      exact h

theorem osdLoop_erases (st : RouterSt) (l : List Int) (tid : Int) (h : tid ∈ l) :
    alGet (osdLoop st l).1.stream_tbl tid = none := by
  induction l generalizing st with
  | nil => simp at h
  | cons t rest ih =>
    simp only [osdLoop]
    rcases List.mem_cons.mp h with rfl | hmem
    · exact osdLoop_none_stable _ rest tid (routerDelRoute_none st tid)
    · exact ih _ hmem

theorem osdLoop_sent_parent (st : RouterSt) (l : List Int) (hp : st.has_parent = true) :
    (osdLoop st l).2.1 = l.map (fun t => (HandleK.delRoute, pyStrInt t)) := by
  induction l generalizing st with
  | nil => rfl
  | cons t rest ih =>
    have hp2 : (routerDelRoute st t).1.has_parent = true := by
      rw [routerDelRoute_has_parent]; exact hp
    simp [osdLoop, propagateMsgs, hp, hp2, encodeRoute, ih _ hp2]

theorem osdLoop_sent_master (st : RouterSt) (l : List Int) (hp : st.has_parent = false) :
    (osdLoop st l).2.1 = [] := by
  induction l generalizing st with
  | nil => rfl
  | cons t rest ih =>
    have hp2 : (routerDelRoute st t).1.has_parent = false := by
      rw [routerDelRoute_has_parent]; exact hp
    simp [osdLoop, propagateMsgs, hp, hp2, ih _ hp2]

theorem osdLoop_fired (st : RouterSt) (l : List Int) :
    (osdLoop st l).2.2.2 = l.filter (fun t => ctxExists st t) := by
  induction l generalizing st with
  | nil => rfl
  | cons t rest ih =>
    have hctx : ctxExists (routerDelRoute st t).1 t = ctxExists st t := by
      unfold ctxExists
      rw [routerDelRoute_ctx_tbl]
    have hrest : ∀ x, ctxExists (routerDelRoute st t).1 x = ctxExists st x := by
      intro x
      unfold ctxExists
      rw [routerDelRoute_ctx_tbl]
    rw [List.filter_cons]
    by_cases hc : ctxExists st t = true
    · simp only [osdLoop, ih]
      simp [hctx, hc, hrest]
    · simp only [osdLoop, ih]
      simp [hctx, hc, hrest]

theorem count_pair_map (l : List Int) (x : Int) :
    (l.map (fun t => (HandleK.delRoute, pyStrInt t))).count (HandleK.delRoute, pyStrInt x)
      = l.count x := by
  induction l with
  | nil => rfl
  | cons a t ih =>
    by_cases hax : a = x
    · subst hax
      simp [List.count_cons, ih]
    · have h1 : ¬ pyStrInt a = pyStrInt x := fun hc => hax (pyStrInt_injective hc)
      simp [List.count_cons, ih, h1, hax]

theorem count_eq_one_of_nodup_mem {l : List Int} {x : Int} (hn : l.Nodup) (hm : x ∈ l) :
    l.count x = 1 := by
  induction l with
  | nil => simp at hm
  | cons a t ih =>
    rcases List.mem_cons.mp hm with rfl | hmem
    · have hnot : x ∉ t := (List.nodup_cons.mp hn).1
      simp [List.count_cons, List.count_eq_zero_of_not_mem hnot]
    · have hax : ¬ a = x := fun hc => (List.nodup_cons.mp hn).1 (hc ▸ hmem)
      simp [List.count_cons, ih (List.nodup_cons.mp hn).2 hmem, hax]

/-- C4: when a stream disconnects, `_on_stream_disconnect` retracts every
context id in its route-set: the id is removed from the router map, exactly
one `DEL_ROUTE` carrying it is propagated upstream when a parent exists
(none at the master), and `disconnect` fires on its context exactly when a
context object exists. -/
theorem stream_disconnect_retracts_routes (st : RouterSt) (sid : Nat) (tid : Int)
    (hnodup : (routesOf st sid).Nodup)
    (hmem : tid ∈ routesOf st sid) :
    alGet (onStreamDisconnect st sid).st.stream_tbl tid = none ∧
    (st.has_parent = true →
      (onStreamDisconnect st sid).sent.count (HandleK.delRoute, pyStrInt tid) = 1) ∧
    (st.has_parent = false → (onStreamDisconnect st sid).sent = []) ∧
    (tid ∈ (onStreamDisconnect st sid).fired ↔ ctxExists st tid = true) := by
  refine ⟨?_, ?_, ?_, ?_⟩
  · exact osdLoop_erases st _ tid hmem
  · intro hp
    show ((osdLoop st (routesOf st sid)).2.1).count (HandleK.delRoute, pyStrInt tid) = 1
    rw [osdLoop_sent_parent st _ hp, count_pair_map]
    exact count_eq_one_of_nodup_mem hnodup hmem
  · intro hp
    show (osdLoop st (routesOf st sid)).2.1 = []
    exact osdLoop_sent_master st _ hp
  · show tid ∈ (osdLoop st (routesOf st sid)).2.2.2 ↔ ctxExists st tid = true
    rw [osdLoop_fired]
    simp only [List.mem_filter]
    exact ⟨fun h => h.2, fun h => ⟨hmem, h⟩⟩

/-- Witness for C4: stream 2 of the fixture state disconnects; its single
route 8 is retracted, one `DEL_ROUTE` for 8 goes upstream, and context 8
receives a `disconnect` event. -/
theorem stream_disconnect_retracts_routes_witness :
    alGet (onStreamDisconnect exSt 2).st.stream_tbl 8 = none ∧
    (exSt.has_parent = true →
      (onStreamDisconnect exSt 2).sent.count (HandleK.delRoute, pyStrInt 8) = 1) ∧
    (exSt.has_parent = false → (onStreamDisconnect exSt 2).sent = []) ∧
    (8 ∈ (onStreamDisconnect exSt 2).fired ↔ ctxExists exSt 8 = true) :=
  stream_disconnect_retracts_routes exSt 2 8 (by decide) (by decide)

theorem pyStrInt_ofNat (n : Nat) : pyStrInt (n : Int) = natToChars n := by
  simp [pyStrInt]

theorem pyInt_natToChars (n : Nat) : pyInt (natToChars n) = some (n : Int) := by
  have := pyInt_pyStrInt (n : Int)
  rwa [pyStrInt_ofNat] at this

/-- C6: route-payload encoding (`propagate`) followed by decoding
(`_on_add_route`) is the identity on `(id, name)` pairs whose name does not
contain a colon: the payload is `<id>:<name>`, or `<id>` when the name is
empty, and partitioning at the first colon plus `int()` recovers both. -/
theorem route_payload_round_trip (id : Nat) (name : List Char) (h : ':' ∉ name) :
    pyInt (partColon (encodeRoute (id : Int) name)).1 = some (id : Int) ∧
    (partColon (encodeRoute (id : Int) name)).2 = name := by
  by_cases hne : name.isEmpty
  · have hnil : name = [] := by simpa [List.isEmpty_iff] using hne
    subst hnil
    have he : encodeRoute (id : Int) [] = pyStrInt (id : Int) := by simp [encodeRoute]
    rw [he, pyStrInt_ofNat, partColon_of_no_colon (natToChars_no_colon id)]
    exact ⟨pyInt_natToChars id, rfl⟩
  · have he : encodeRoute (id : Int) name = pyStrInt (id : Int) ++ ':' :: name := by
      simp [encodeRoute, hne]
    rw [he, pyStrInt_ofNat, partColon_append (natToChars_no_colon id)]
    exact ⟨pyInt_natToChars id, rfl⟩

/-- Witness for C6 at the concrete pair `(12, "x")`. -/
theorem route_payload_round_trip_witness :
    pyInt (partColon (encodeRoute (12 : Int) ['x'])).1 = some (12 : Int) ∧
    (partColon (encodeRoute (12 : Int) ['x'])).2 = ['x'] :=
  route_payload_round_trip 12 ['x'] (by decide)

/-- A duplicate-free but non-canonical `ADD_ROUTE` payload: the id carries a
leading zero. -/
def exMsgAddPad : Msg := ⟨5, 5, ['0', '7', ':', 'x'], false⟩

/-- Counterexample to C3 as stated: this `ADD_ROUTE` is accepted at a node
with a parent (not a tombstone, id parses, no route conflict, arrival stream
known), yet the message propagated upstream does not carry an identical
payload: the handler re-encodes the parsed id, turning `07:x` into `7:x`. -/
theorem add_route_payload_not_identical :
    exMsgAddPad.is_dead = false ∧
    exSt.has_parent = true ∧
    pyInt (partColon exMsgAddPad.data).1 = some 7 ∧
    addConflict exSt (streamById exSt 7) = false ∧
    streamById exSt exMsgAddPad.auth_id = some 1 ∧
    (onAddRoute exSt exMsgAddPad).sent = [(HandleK.addRoute, ['7', ':', 'x'])] ∧
    (onAddRoute exSt exMsgAddPad).sent ≠ [(HandleK.addRoute, exMsgAddPad.data)] := by
  decide

theorem addStreamRoute_stream_tbl (st : RouterSt) (sid : Nat) (tid : Int) :
    (addStreamRoute st sid tid).stream_tbl = st.stream_tbl := by
  unfold addStreamRoute
  cases alGet st.streams sid <;> rfl

theorem discardStreamRoute_stream_tbl (st : RouterSt) (sid : Nat) (tid : Int) :
    (discardStreamRoute st sid tid).stream_tbl = st.stream_tbl := by
  unfold discardStreamRoute
  cases alGet st.streams sid <;> rfl

/-- C3 (amended): for every `ADD_ROUTE` accepted at a node, exactly one
`ADD_ROUTE` is emitted to the parent stream, whose payload is the canonical
re-encoding of the parsed id and name (hence identical to the incoming
payload exactly when that payload is canonical); same for `DEL_ROUTE`; at
the master, where there is no parent, propagate emits nothing. -/
theorem route_propagation_exactly_once (st : RouterSt) (amsg dmsg : Msg)
    (atid dtid : Int) (asid dsid : Nat)
    (hadead : amsg.is_dead = false)
    (haparse : pyInt (partColon amsg.data).1 = some atid)
    (hanoconf : addConflict st (streamById st atid) = false)
    (haarr : streamById st amsg.auth_id = some asid)
    (hddead : dmsg.is_dead = false)
    (hdparse : pyInt dmsg.data = some dtid)
    (hdreg : streamById st dtid = streamById st dmsg.auth_id)
    (hdarr : streamById st dmsg.auth_id = some dsid) :
    (onAddRoute st amsg).sent
      = (if st.has_parent then
          [(HandleK.addRoute, encodeRoute atid (partColon amsg.data).2)] else []) ∧
    (onDelRoute st dmsg).sent
      = (if st.has_parent then [(HandleK.delRoute, encodeRoute dtid [])] else []) := by
  constructor
  · have hp : (routerAddRoute (addStreamRoute (ctxSetName st atid (partColon amsg.data).2)
        asid atid) atid asid).has_parent = st.has_parent := by
      rw [routerAddRoute_has_parent, addStreamRoute_has_parent, ctxSetName_has_parent]
    simp only [onAddRoute, hadead, Bool.false_eq_true, if_false, haparse]
    simp only [streamById_ctxSetName, addConflict_ctxSetName, hanoconf,
      Bool.false_eq_true, if_false, haarr]
    simp [propagateMsgs, hp]
  · have hne : ¬ streamById st dtid ≠ streamById st dmsg.auth_id := by
      rw [hdreg]
      exact fun hc => hc rfl
    have hp : (routerDelRoute (discardStreamRoute st dsid dtid) dtid).1.has_parent
        = st.has_parent := by
      rw [routerDelRoute_has_parent, discardStreamRoute_has_parent]
    have hdd : streamById st dtid = some dsid := by rw [hdreg]; exact hdarr
    simp only [onDelRoute, hddead, Bool.false_eq_true, if_false, hdparse, hne, hdarr]
    simp [propagateMsgs, hp, hdd]

/-- Witness for C3 (amended): an accepted `ADD_ROUTE` for 7 and an accepted
`DEL_ROUTE` for 8 at the fixture state each propagate exactly one message. -/
theorem route_propagation_exactly_once_witness :
    (onAddRoute exSt ⟨5, 5, ['7', ':', 'y'], false⟩).sent
      = (if exSt.has_parent then
          [(HandleK.addRoute,
            encodeRoute 7 (partColon (⟨5, 5, ['7', ':', 'y'], false⟩ : Msg).data).2)] else []) ∧
    (onDelRoute exSt ⟨9, 9, ['8'], false⟩).sent
      = (if exSt.has_parent then [(HandleK.delRoute, encodeRoute 8 [])] else []) :=
  route_propagation_exactly_once exSt ⟨5, 5, ['7', ':', 'y'], false⟩ ⟨9, 9, ['8'], false⟩
    7 8 1 2 rfl (by decide) (by decide) (by decide) rfl (by decide) (by decide) (by decide)

/-! ### Child reaping (`Stream._reap_child`)

The child process is modelled by its observable `waitpid(WNOHANG)` state:
still running (waitpid returns pid 0), exited (waitpid collects the status
and the OS forgets the child), or gone (waitpid raises `ECHILD`).  Each
invocation takes the outcome the OS would give `os.kill` (success, `EPERM`
for a setuid child, or another `OSError`). -/

inductive ChildSt where
  | running
  | exited (status : Nat)
  | gone
deriving DecidableEq

inductive KillRes where
  | ok
  | eperm
  | oserr
deriving DecidableEq

/-- The per-stream `_reaped` flag together with the child state. -/
structure ReapS where
  reaped : Bool
  child : ChildSt
deriving DecidableEq

/-- Observable effects of one `_reap_child` call: whether the exit status
was collected by `waitpid`, whether `SIGTERM` was sent, and whether the
call raised. -/
structure ReapEff where
  collected : Bool
  sigterm : Bool
  raised : Bool
deriving DecidableEq

/-- `Stream._reap_child`: return immediately when already reaped; `ECHILD`
is logged and tolerated without setting the flag; a collected status sets
the flag; a still-running child sets the flag and receives `SIGTERM`
(`EPERM` tolerated, other `OSError` re-raised). -/
def reap_child (s : ReapS) (kr : KillRes) : ReapS × ReapEff :=
  if s.reaped then (s, ⟨false, false, false⟩)
  else
    match s.child with
    | ChildSt.gone => (s, ⟨false, false, false⟩)
    | ChildSt.exited _ => ({ s with reaped := true, child := ChildSt.gone }, ⟨true, false, false⟩)
    | ChildSt.running => ({ s with reaped := true }, ⟨false, true, kr == KillRes.oserr⟩)

/-- Repeated invocations of `_reap_child` (one per disconnect callback or
failed connect), returning the total number of status collections and of
`SIGTERM` deliveries. -/
def runReap (s : ReapS) : List KillRes → Nat × Nat
  | [] => (0, 0)
  | kr :: rest =>
    let p := reap_child s kr
    let q := runReap p.1 rest
    ((if p.2.collected then 1 else 0) + q.1, (if p.2.sigterm then 1 else 0) + q.2)

theorem runReap_reaped (s : ReapS) (hs : s.reaped = true) :
    ∀ krs, runReap s krs = (0, 0) := by
  intro krs
  induction krs with
  | nil => rfl
  | cons kr rest ih => simp [runReap, reap_child, hs, ih]

theorem runReap_gone (s : ReapS) (hc : s.child = ChildSt.gone) :
    ∀ krs, runReap s krs = (0, 0) := by
  intro krs
  induction krs with
  | nil => rfl
  | cons kr rest ih =>
    by_cases hr : s.reaped = true
    · simp [runReap, reap_child, hr, ih]
    · simp only [Bool.not_eq_true] at hr
      simp [runReap, reap_child, hr, hc, ih]

/-- C5: for any stream and any number of `_reap_child` invocations, the
waitpid status collection and the `SIGTERM` fallback together happen at
most once. -/
theorem reap_child_at_most_once (s : ReapS) (krs : List KillRes) :
    (runReap s krs).1 + (runReap s krs).2 ≤ 1 := by
  induction krs generalizing s with
  | nil => simp [runReap]
  | cons kr rest ih =>
    by_cases hr : s.reaped = true
    · rw [runReap_reaped s hr]
      simp
    · simp only [Bool.not_eq_true] at hr
      cases hchild : s.child with
      | running =>
        have hz : runReap ⟨true, ChildSt.running⟩ rest = (0, 0) :=
          runReap_reaped _ rfl rest
        simp [runReap, reap_child, hr, hchild, hz]
      | exited c =>
        have hz : runReap ⟨true, ChildSt.gone⟩ rest = (0, 0) :=
          runReap_reaped _ rfl rest
        simp [runReap, reap_child, hr, hchild, hz]
      | gone =>
        rw [runReap_gone s hchild]
        simp

/-! ### Remote-name validation (`Stream.construct`) -/

/-- The default remote name `'%s@%s:%d' % (getpass.getuser(),
socket.gethostname(), os.getpid())`. -/
def defaultRemoteName (user host : List Char) (pid : Nat) : List Char :=
  user ++ '@' :: host ++ ':' :: natToChars pid

/-- The `'/' in remote_name or '\\' in remote_name` test of
`Stream.construct`. -/
def hasPathSep (nm : List Char) : Bool := nm.any (fun c => c == '/' || c == '\\')

/-- The remote-name portion of `Stream.construct`: default the name when
none is supplied, then reject any name containing a path separator
(`none` models the `ValueError`); otherwise store the name. -/
def construct_remote_name (supplied : Option (List Char)) (user host : List Char)
    (pid : Nat) : Option (List Char) :=
  let nm := match supplied with
    | none => defaultRemoteName user host pid
    | some s => s
  if hasPathSep nm then none else some nm

theorem hasPathSep_iff (nm : List Char) :
    hasPathSep nm = true ↔ ('/' ∈ nm ∨ '\\' ∈ nm) := by
  simp only [hasPathSep, List.any_eq_true, Bool.or_eq_true, beq_iff_eq]
  constructor
  · rintro ⟨c, hc, rfl | rfl⟩
    · exact Or.inl hc
    · exact Or.inr hc
  · rintro (h | h)
    · exact ⟨'/', h, Or.inl rfl⟩
    · exact ⟨'\\', h, Or.inr rfl⟩

/-- C7: `Stream.construct` raises `ValueError` exactly when the remote name
in effect (the supplied one, or the `user@host:pid` default) contains `/`
or `\`; when it does not raise, the stored name is that name and contains
neither separator. -/
theorem construct_remote_name_validation (supplied : Option (List Char))
    (user host : List Char) (pid : Nat) :
    (construct_remote_name supplied user host pid = none ↔
      ('/' ∈ supplied.getD (defaultRemoteName user host pid) ∨
       '\\' ∈ supplied.getD (defaultRemoteName user host pid))) ∧
    (∀ nm, construct_remote_name supplied user host pid = some nm →
      nm = supplied.getD (defaultRemoteName user host pid) ∧ '/' ∉ nm ∧ '\\' ∉ nm) := by
  have heff : (match supplied with
      | none => defaultRemoteName user host pid
      | some s => s) = supplied.getD (defaultRemoteName user host pid) := by
    cases supplied <;> rfl
  unfold construct_remote_name
  rw [heff]
  by_cases hs : hasPathSep (supplied.getD (defaultRemoteName user host pid)) = true
  · refine ⟨?_, ?_⟩
    · simp [hs, (hasPathSep_iff _).mp hs]
    · intro nm hnm
      simp [hs] at hnm
  · have hsep := hs
    rw [hasPathSep_iff] at hsep
    refine ⟨?_, ?_⟩
    · simp only [Bool.not_eq_true] at hs
      simp [hs, hsep]
    · intro nm hnm
      simp only [Bool.not_eq_true] at hs
      simp only [hs, Bool.false_eq_true, if_false, Option.some.injEq] at hnm
      subst hnm
      push_neg at hsep
      exact ⟨rfl, hsep.1, hsep.2⟩

/-- Witness for C7: the default name is accepted, a supplied name with a
slash is rejected. -/
theorem construct_remote_name_validation_witness :
    (construct_remote_name none ['u'] ['h'] 3 = some (defaultRemoteName ['u'] ['h'] 3) ∧
      '/' ∉ defaultRemoteName ['u'] ['h'] 3) ∧
    construct_remote_name (some ['a', '/', 'b']) ['u'] ['h'] 3 = none := by
  refine ⟨⟨?_, ?_⟩, ?_⟩
  · rcases (construct_remote_name_validation none ['u'] ['h'] 3).2
        (defaultRemoteName ['u'] ['h'] 3) (by decide) with ⟨h1, h2, h3⟩
    decide
  · exact ((construct_remote_name_validation none ['u'] ['h'] 3).2
      (defaultRemoteName ['u'] ['h'] 3) (by decide)).2.1
  · exact (construct_remote_name_validation (some ['a', '/', 'b']) ['u'] ['h'] 3).1.mpr
      (by decide)

/-! ### Proxy connect (`_proxy_connect` and `Router.proxy_connect`) -/

/-- The record returned to the requester by `_proxy_connect`. -/
structure ProxyResp where
  id : Option Int
  name : Option (List Char)
  msg : Option (List Char)
deriving DecidableEq

/-- `_proxy_connect`: run the local `Router._connect` (given here by its
outcome: a stream-setup error message or the new context id and name) and
package the result; errors become `{id: None, name: None, msg: str(e)}`. -/
def proxy_connect_result (res : Except (List Char) (Int × List Char)) : ProxyResp :=
  match res with
  | Except.error m => ⟨none, none, some m⟩
  | Except.ok p => ⟨some p.1, some p.2, none⟩

/-- A context record in the requester router: name and `via` back-reference. -/
structure CtxRec where
  name : List Char
  via_id : Option Int
deriving DecidableEq

/-- `Router.proxy_connect` after the RPC reply `resp` arrives: re-raise
`StreamError(resp['msg'])` when set, otherwise synthesise the context named
`'<via_name>.<name>'` with `via` set and register it.  (`_proxy_connect`
always supplies an id when `msg` is absent, so the `getD` default is never
used on replies it produces.) -/
def router_proxy_connect (ctxs : List (Int × CtxRec)) (via_id : Int) (via_name : List Char)
    (resp : ProxyResp) : List (Int × CtxRec) × Except (List Char) Int :=
  match resp.msg with
  | some m => (ctxs, Except.error m)
  | none =>
    let nm := via_name ++ '.' :: resp.name.getD []
    let cid := resp.id.getD 0
    (alSet ctxs cid ⟨nm, some via_id⟩, Except.ok cid)

/-- C8: a remote connect failing with a stream error yields the record
`{id: None, name: None, msg: reason}`, and the requester re-raises exactly
that reason as a `StreamError` while leaving its context table unchanged. -/
theorem proxy_connect_error_propagation (ctxs : List (Int × CtxRec)) (via_id : Int)
    (via_name m : List Char) :
    proxy_connect_result (Except.error m) = ⟨none, none, some m⟩ ∧
    router_proxy_connect ctxs via_id via_name (proxy_connect_result (Except.error m))
      = (ctxs, Except.error m) :=
  ⟨rfl, rfl⟩

/-! ### Source minimiser (`minimize_source`)

`minimize_source` pipes a `tokenize` token stream through `strip_comments`,
`strip_docstrings` and `reindent`, then `untokenize`s it.  The three
transformations are embedded verbatim over token 5-tuples; `tokenize` and
`untokenize` are Python-stdlib externals, represented by their token
streams: `untokenize` honours recorded positions, so the line count of the
regenerated text is the greatest end row appearing in the stream
(`maxErow`). -/

/-- The `tokenize` token types the minimiser branches on; every other type
behaves uniformly and is `OTHER`. -/
inductive Ttyp where
  | COMMENT
  | NL
  | NEWLINE
  | STRING
  | INDENT
  | DEDENT
  | ENDMARKER
  | OTHER
deriving DecidableEq

/-- A `tokenize` 5-tuple `(typ, tok, (srow, scol), (erow, ecol), line)`. -/
structure Tok where
  typ : Ttyp
  s : List Char
  srow : Nat
  scol : Nat
  erow : Nat
  ecol : Nat
  line : List Char
deriving DecidableEq

/-- `strip_comments` body: drop comments after line 2, rewrite NL/NEWLINE
columns from the previous token, keep everything else. -/
def stripCommentsAux (prevTyp : Option Ttyp) (prevEndCol : Nat) : List Tok → List Tok
  | [] => []
  | t :: rest =>
    if t.typ = Ttyp.NL ∨ t.typ = Ttyp.NEWLINE then
      let sc := if prevTyp = some Ttyp.NL ∨ prevTyp = some Ttyp.NEWLINE then 0 else prevEndCol
      { t with scol := sc, ecol := sc + 1 } :: stripCommentsAux (some t.typ) (sc + 1) rest
    else if t.typ = Ttyp.COMMENT ∧ 2 < t.srow then
      stripCommentsAux prevTyp prevEndCol rest
    else
      t :: stripCommentsAux (some t.typ) t.ecol rest

/-- `strip_comments` (initial `prev_typ = None`, `prev_end_col = 0`). -/
def strip_comments (ts : List Tok) : List Tok := stripCommentsAux none 0 ts

/-- The blank-line token `(NL, '\n', (i, 0), (i, 1), '\n')` that
`strip_docstrings` substitutes for docstring lines. -/
def nlTok (i : Nat) : Tok := ⟨Ttyp.NL, ['\n'], i, 0, i, 1, ['\n']⟩

/-- State of the `strip_docstrings` scanner. -/
inductive SDState where
  | waitString (stack : List Tok)
  | waitNewline
deriving DecidableEq

/-- `strip_docstrings` body.  In the `NEWLINE` branch, Python re-emits the
stacked INDENT/DEDENT tokens at row `i + 1` where `i` is the final index of
the just-finished `range(start_line, end_line)` loop, i.e. `end_line`. -/
def stripDocAux : SDState → List Tok → List Tok
  | _, [] => []
  | SDState.waitNewline, t :: rest =>
    if t.typ = Ttyp.NEWLINE then t :: stripDocAux (SDState.waitString []) rest
    else t :: stripDocAux SDState.waitNewline rest
  | SDState.waitString stack, t :: rest =>
    if t.typ = Ttyp.NL ∨ t.typ = Ttyp.COMMENT then
      t :: stripDocAux (SDState.waitString stack) rest
    else if t.typ = Ttyp.DEDENT ∨ t.typ = Ttyp.INDENT ∨ t.typ = Ttyp.STRING then
      stripDocAux (SDState.waitString (stack ++ [t])) rest
    else if t.typ = Ttyp.NEWLINE then
      let stack2 := stack ++ [t]
      let startLine := (stack2.headD (nlTok 0)).srow
      let endLine := t.erow + 1
      (List.range' startLine (endLine - startLine)).map nlTok
        ++ (stack2.filter (fun u => u.typ = Ttyp.DEDENT ∨ u.typ = Ttyp.INDENT)).map
            (fun u => { u with srow := endLine, erow := endLine })
        ++ stripDocAux (SDState.waitString []) rest
    else
      (stack ++ [t]) ++ stripDocAux SDState.waitNewline rest

/-- `strip_docstrings` (initial state `wait_string`, empty stack). -/
def strip_docstrings (ts : List Tok) : List Tok :=
  stripDocAux (SDState.waitString []) ts

/-- `reindent` body with the `old_levels` stack, current `old_level` and
`new_level`.  `none` models the `IndexError` from popping an empty stack on
an unbalanced DEDENT; column arithmetic is over `Int` with `max 0`
(`Int.toNat`). -/
def reindentAux : List Nat → Nat → Nat → List Tok → Option (List Tok)
  | _, _, _, [] => some []
  | oldLevels, oldLevel, newLevel, t :: rest =>
    if t.typ = Ttyp.INDENT then
      let oldLevel2 := t.s.length
      let newLevel2 := newLevel + 1
      let tok2 := List.replicate newLevel2 ' '
      let sc := (((t.scol : Int) - oldLevel2) + newLevel2).toNat
      let ec := if t.srow = t.erow then sc + tok2.length else t.ecol
      (reindentAux (oldLevel :: oldLevels) oldLevel2 newLevel2 rest).map
        (fun out => { t with s := tok2, scol := sc, ecol := ec } :: out)
    else if t.typ = Ttyp.DEDENT then
      match oldLevels with
      | [] => none
      | l :: ls =>
        let sc := (((t.scol : Int) - l) + (newLevel - 1)).toNat
        let ec := if t.srow = t.erow then sc + t.s.length else t.ecol
        (reindentAux ls l (newLevel - 1) rest).map
          (fun out => { t with scol := sc, ecol := ec } :: out)
    else
      let sc := (((t.scol : Int) - oldLevel) + newLevel).toNat
      let ec := if t.srow = t.erow then sc + t.s.length else t.ecol
      (reindentAux oldLevels oldLevel newLevel rest).map
        (fun out => { t with scol := sc, ecol := ec } :: out)

/-- `reindent` with a single-space indent, as `minimize_source` uses it. -/
def reindent (ts : List Tok) : Option (List Tok) := reindentAux [] 0 0 ts

/-- `minimize_source` at the token level: the composition of the three
stream transformations between `generate_tokens` and `untokenize`. -/
def minimize_source_tokens (ts : List Tok) : Option (List Tok) :=
  reindent (strip_docstrings (strip_comments ts))

/-- Greatest end row in a stream: the line count of the `untokenize`d text. -/
def maxErow (ts : List Tok) : Nat := (ts.map Tok.erow).foldr max 0

/-- The subsequence of INDENT/DEDENT token types, which determines
indent-stack behaviour. -/
def idSeq (ts : List Tok) : List Ttyp :=
  (ts.map Tok.typ).filter (fun ty => ty == Ttyp.INDENT || ty == Ttyp.DEDENT)

/-- Indentation balance: each DEDENT finds a matching earlier INDENT. -/
def balAux : List Ttyp → Nat → Bool
  | [], _ => true
  | ty :: r, d =>
    if ty = Ttyp.INDENT then balAux r (d + 1)
    else if ty = Ttyp.DEDENT then
      match d with
      | 0 => false
      | d2 + 1 => balAux r d2
    else balAux r d

/-- Placeholder token returned for an empty stream. -/
def dummyTok : Tok := ⟨Ttyp.OTHER, [], 0, 0, 0, 0, []⟩

/-- Last token of a stream (`dummyTok` when empty). -/
def lastTok : List Tok → Tok
  | [] => dummyTok
  | [t] => t
  | _ :: b :: r => lastTok (b :: r)

/-- Well-formedness facts true of every stream `tokenize` produces for a
tokenisable source: nonempty, ends with `ENDMARKER` on the greatest row
(end rows are nondecreasing), every `NEWLINE` lies strictly above it, and
INDENT/DEDENT are balanced. -/
def wfStream (ts : List Tok) : Bool :=
  !ts.isEmpty
  && (lastTok ts).typ == Ttyp.ENDMARKER
  && decide (List.Pairwise (fun a b : Tok => a.erow ≤ b.erow) ts)
  && ts.all (fun t => !(t.typ == Ttyp.NEWLINE) || decide (t.erow < (lastTok ts).erow))
  && balAux (ts.map Tok.typ) 0

@[simp] theorem idSeq_nil : idSeq [] = [] := rfl

theorem idSeq_cons (t : Tok) (l : List Tok) :
    idSeq (t :: l)
      = (if t.typ = Ttyp.INDENT ∨ t.typ = Ttyp.DEDENT then [t.typ] else []) ++ idSeq l := by
  by_cases h : t.typ = Ttyp.INDENT ∨ t.typ = Ttyp.DEDENT
  · rcases h with h | h <;> simp [idSeq, List.filter_cons, h]
  · push_neg at h
    simp [idSeq, List.filter_cons, h.1, h.2]

theorem idSeq_append (a b : List Tok) : idSeq (a ++ b) = idSeq a ++ idSeq b := by
  simp [idSeq, List.filter_append]

theorem maxErow_cons (t : Tok) (l : List Tok) :
    maxErow (t :: l) = max t.erow (maxErow l) := rfl

theorem le_maxErow_of_mem {t : Tok} {l : List Tok} (h : t ∈ l) : t.erow ≤ maxErow l := by
  induction l with
  | nil => simp at h
  | cons a r ih =>
    rw [maxErow_cons]
    rcases List.mem_cons.mp h with rfl | hm
    · exact le_max_left _ _
    · exact le_trans (ih hm) (le_max_right _ _)

theorem maxErow_le {l : List Tok} {R : Nat} (h : ∀ t ∈ l, t.erow ≤ R) : maxErow l ≤ R := by
  induction l with
  | nil => simp [maxErow]
  | cons a r ih =>
    rw [maxErow_cons]
    exact max_le (h a (by simp)) (ih fun t ht => h t (by simp [ht]))

theorem maxErow_eq_of {l : List Tok} {t : Tok} {R : Nat} (hm : t ∈ l) (ht : t.erow = R)
    (hb : ∀ u ∈ l, u.erow ≤ R) : maxErow l = R :=
  le_antisymm (maxErow_le hb) (ht ▸ le_maxErow_of_mem hm)

@[simp] theorem lastTok_cons_cons (a b : Tok) (r : List Tok) :
    lastTok (a :: b :: r) = lastTok (b :: r) := rfl

theorem lastTok_append_single (l : List Tok) (e : Tok) : lastTok (l ++ [e]) = e := by
  induction l with
  | nil => rfl
  | cons a r ih =>
    cases r with
    | nil => rfl
    | cons b r2 => simpa using ih

theorem lastTok_mem {l : List Tok} (h : l ≠ []) : lastTok l ∈ l := by
  induction l with
  | nil => exact absurd rfl h
  | cons a r ih =>
    cases r with
    | nil => simp [lastTok]
    | cons b r2 => simpa using List.mem_cons_of_mem a (ih (by simp))

theorem dropLast_append_lastTok {l : List Tok} (h : l ≠ []) :
    l.dropLast ++ [lastTok l] = l := by
  induction l with
  | nil => exact absurd rfl h
  | cons a r ih =>
    cases r with
    | nil => rfl
    | cons b r2 =>
      have := ih (by simp)
      simp only [List.dropLast_cons₂, lastTok_cons_cons, List.cons_append]
      exact congrArg (a :: ·) this

theorem pairwise_le_last (ts : List Tok)
    (h : List.Pairwise (fun a b : Tok => a.erow ≤ b.erow) ts) :
    ∀ t ∈ ts, t.erow ≤ (lastTok ts).erow := by
  induction ts with
  | nil => intro t ht; simp at ht
  | cons a r ih =>
    intro t ht
    rcases List.pairwise_cons.mp h with ⟨ha, hr⟩
    cases r with
    | nil =>
      rcases List.mem_cons.mp ht with rfl | hm
      · simp [lastTok]
      · simp at hm
    | cons b r2 =>
      rw [lastTok_cons_cons]
      rcases List.mem_cons.mp ht with rfl | hm
      · exact ha _ (lastTok_mem (by simp))
      · exact ih hr t hm

theorem wfStream_spec (ts : List Tok) (h : wfStream ts = true) :
    ts ≠ [] ∧
    (lastTok ts).typ = Ttyp.ENDMARKER ∧
    List.Pairwise (fun a b : Tok => a.erow ≤ b.erow) ts ∧
    (∀ t ∈ ts, t.typ = Ttyp.NEWLINE → t.erow < (lastTok ts).erow) ∧
    balAux (ts.map Tok.typ) 0 = true := by
  simp only [wfStream, Bool.and_eq_true, Bool.not_eq_true', List.all_eq_true,
    Bool.or_eq_true, beq_iff_eq, decide_eq_true_eq, Bool.not_eq_true] at h
  obtain ⟨⟨⟨⟨h1, h2⟩, h3⟩, h4⟩, h5⟩ := h
  refine ⟨?_, h2, h3, ?_, h5⟩
  · intro hc
    rw [hc] at h1
    simp at h1
  · intro t ht htyp
    rcases h4 t ht with hc | hc
    · rw [htyp] at hc; simp at hc
    · exact hc

theorem sc_shape : ∀ (ts : List Tok) (p : Option Ttyp) (c : Nat),
    ∀ t2 ∈ stripCommentsAux p c ts, ∃ t1 ∈ ts, t2.typ = t1.typ ∧ t2.erow = t1.erow := by
  intro ts
  induction ts with
  | nil => intro p c t2 h2; simp [stripCommentsAux] at h2
  | cons t rest ih =>
    intro p c t2 h2
    by_cases h1 : t.typ = Ttyp.NL ∨ t.typ = Ttyp.NEWLINE
    · simp only [stripCommentsAux, if_pos h1] at h2
      rcases List.mem_cons.mp h2 with rfl | hm
      · exact ⟨t, by simp, rfl, rfl⟩
      · rcases ih _ _ t2 hm with ⟨t1, hmem, hp⟩
        exact ⟨t1, by simp [hmem], hp⟩
    · by_cases hcm : t.typ = Ttyp.COMMENT ∧ 2 < t.srow
      · simp only [stripCommentsAux, if_neg h1, if_pos hcm] at h2
        rcases ih _ _ t2 h2 with ⟨t1, hmem, hp⟩
        exact ⟨t1, by simp [hmem], hp⟩
      · simp only [stripCommentsAux, if_neg h1, if_neg hcm] at h2
        rcases List.mem_cons.mp h2 with rfl | hm
        · exact ⟨t2, by simp, rfl, rfl⟩
        · rcases ih _ _ t2 hm with ⟨t1, hmem, hp⟩
          exact ⟨t1, by simp [hmem], hp⟩

theorem sc_comment_mem : ∀ (ts : List Tok) (p : Option Ttyp) (c : Nat) (t : Tok),
    t ∈ ts → t.typ = Ttyp.COMMENT → t.srow ≤ 2 → t ∈ stripCommentsAux p c ts := by
  intro ts
  induction ts with
  | nil => intro p c t ht; simp at ht
  | cons a rest ih =>
    intro p c t ht htyp hrow
    by_cases h1 : a.typ = Ttyp.NL ∨ a.typ = Ttyp.NEWLINE
    · simp only [stripCommentsAux, if_pos h1]
      rcases List.mem_cons.mp ht with rfl | hm
      · rcases h1 with h1 | h1 <;> rw [htyp] at h1 <;> simp at h1
      · exact List.mem_cons_of_mem _ (ih _ _ t hm htyp hrow)
    · by_cases hcm : a.typ = Ttyp.COMMENT ∧ 2 < a.srow
      · simp only [stripCommentsAux, if_neg h1, if_pos hcm]
        rcases List.mem_cons.mp ht with rfl | hm
        · omega
        · exact ih _ _ t hm htyp hrow
      · simp only [stripCommentsAux, if_neg h1, if_neg hcm]
        rcases List.mem_cons.mp ht with rfl | hm
        · exact List.mem_cons_self _ _
        · exact List.mem_cons_of_mem _ (ih _ _ t hm htyp hrow)

theorem sc_last : ∀ (l : List Tok) (p : Option Ttyp) (c : Nat) (e : Tok),
    e.typ = Ttyp.ENDMARKER →
    ∃ pre, stripCommentsAux p c (l ++ [e]) = pre ++ [e] := by
  intro l
  induction l with
  | nil =>
    intro p c e he
    refine ⟨[], ?_⟩
    have h1 : ¬ (e.typ = Ttyp.NL ∨ e.typ = Ttyp.NEWLINE) := by rw [he]; simp
    have h2 : ¬ (e.typ = Ttyp.COMMENT ∧ 2 < e.srow) := by rw [he]; simp
    simp [stripCommentsAux, h1, h2]
  | cons t rest ih =>
    intro p c e he
    by_cases h1 : t.typ = Ttyp.NL ∨ t.typ = Ttyp.NEWLINE
    · rcases ih (some t.typ)
        ((if p = some Ttyp.NL ∨ p = some Ttyp.NEWLINE then 0 else c) + 1) e he with ⟨pre, hpre⟩
      refine ⟨({ t with scol := if p = some Ttyp.NL ∨ p = some Ttyp.NEWLINE then 0 else c, ecol := (if p = some Ttyp.NL ∨ p = some Ttyp.NEWLINE then 0 else c) + 1 } : Tok) :: pre, ?_⟩
      simp only [stripCommentsAux, if_pos h1, List.cons_append]
      exact congrArg (List.cons _) hpre
    · by_cases hcm : t.typ = Ttyp.COMMENT ∧ 2 < t.srow
      · rcases ih p c e he with ⟨pre, hpre⟩
        exact ⟨pre, by simp [stripCommentsAux, h1, hcm, hpre]⟩
      · rcases ih (some t.typ) t.ecol e he with ⟨pre, hpre⟩
        exact ⟨t :: pre, by simp [stripCommentsAux, h1, hcm, hpre]⟩

theorem sc_idSeq : ∀ (ts : List Tok) (p : Option Ttyp) (c : Nat),
    idSeq (stripCommentsAux p c ts) = idSeq ts := by
  intro ts
  induction ts with
  | nil => intro p c; rfl
  | cons t rest ih =>
    intro p c
    by_cases h1 : t.typ = Ttyp.NL ∨ t.typ = Ttyp.NEWLINE
    · simp only [stripCommentsAux, if_pos h1]
      rw [idSeq_cons, idSeq_cons, ih]
    · by_cases hcm : t.typ = Ttyp.COMMENT ∧ 2 < t.srow
      · have hnid : ¬ (t.typ = Ttyp.INDENT ∨ t.typ = Ttyp.DEDENT) := by
          rw [hcm.1]; simp
        simp only [stripCommentsAux, if_neg h1, if_pos hcm]
        rw [idSeq_cons, if_neg hnid, ih]
        simp
      · simp only [stripCommentsAux, if_neg h1, if_neg hcm]
        rw [idSeq_cons, idSeq_cons, ih]

/-- The stack carried by the `strip_docstrings` state. -/
def stackOf : SDState → List Tok
  | SDState.waitString stack => stack
  | SDState.waitNewline => []

theorem sd_comment_mem : ∀ (ts : List Tok) (st : SDState) (t : Tok),
    t ∈ ts → t.typ = Ttyp.COMMENT → t ∈ stripDocAux st ts := by
  intro ts
  induction ts with
  | nil => intro st t ht; simp at ht
  | cons a rest ih =>
    intro st t ht htyp
    cases st with
    | waitNewline =>
      by_cases h3 : a.typ = Ttyp.NEWLINE
      · simp only [stripDocAux, if_pos h3]
        rcases List.mem_cons.mp ht with rfl | hm
        · exact List.mem_cons_self _ _
        · exact List.mem_cons_of_mem _ (ih _ t hm htyp)
      · simp only [stripDocAux, if_neg h3]
        rcases List.mem_cons.mp ht with rfl | hm
        · exact List.mem_cons_self _ _
        · exact List.mem_cons_of_mem _ (ih _ t hm htyp)
    | waitString stack =>
      by_cases h1 : a.typ = Ttyp.NL ∨ a.typ = Ttyp.COMMENT
      · simp only [stripDocAux, if_pos h1]
        rcases List.mem_cons.mp ht with rfl | hm
        · exact List.mem_cons_self _ _
        · exact List.mem_cons_of_mem _ (ih _ t hm htyp)
      · by_cases h2 : a.typ = Ttyp.DEDENT ∨ a.typ = Ttyp.INDENT ∨ a.typ = Ttyp.STRING
        · simp only [stripDocAux, if_neg h1, if_pos h2]
          rcases List.mem_cons.mp ht with rfl | hm
          · exact absurd (Or.inr htyp) h1
          · exact ih _ t hm htyp
        · by_cases h3 : a.typ = Ttyp.NEWLINE
          · simp only [stripDocAux, if_neg h1, if_neg h2, if_pos h3]
            rcases List.mem_cons.mp ht with rfl | hm
            · exact absurd (Or.inr htyp) h1
            · exact List.mem_append.mpr (Or.inr (ih _ t hm htyp))
          · simp only [stripDocAux, if_neg h1, if_neg h2, if_neg h3]
            rcases List.mem_cons.mp ht with rfl | hm
            · exact List.mem_append.mpr
                (Or.inl (List.mem_append.mpr (Or.inr (List.mem_cons_self _ _))))
            · exact List.mem_append.mpr (Or.inr (ih _ t hm htyp))

theorem sd_rows : ∀ (ts : List Tok) (st : SDState) (R : Nat),
    (∀ u ∈ stackOf st, u.erow ≤ R) →
    (∀ u ∈ ts, u.erow ≤ R) →
    (∀ u ∈ ts, u.typ = Ttyp.NEWLINE → u.erow < R) →
    ∀ t2 ∈ stripDocAux st ts, t2.erow ≤ R := by
  intro ts
  induction ts with
  | nil => intro st R hs hb hn t2 h2; simp [stripDocAux] at h2
  | cons a rest ih =>
    intro st R hs hb hn t2 h2
    have hb2 : ∀ u ∈ rest, u.erow ≤ R := fun u hu => hb u (List.mem_cons_of_mem _ hu)
    have hn2 : ∀ u ∈ rest, u.typ = Ttyp.NEWLINE → u.erow < R :=
      fun u hu => hn u (List.mem_cons_of_mem _ hu)
    have ha : a.erow ≤ R := hb a (List.mem_cons_self _ _)
    have hnilstack : ∀ u ∈ stackOf (SDState.waitString []), u.erow ≤ R := by
      intro u hu; simp [stackOf] at hu
    have hwnstack : ∀ u ∈ stackOf SDState.waitNewline, u.erow ≤ R := by
      intro u hu; simp [stackOf] at hu
    cases st with
    | waitNewline =>
      by_cases h3 : a.typ = Ttyp.NEWLINE
      · simp only [stripDocAux, if_pos h3] at h2
        rcases List.mem_cons.mp h2 with rfl | hm
        · exact ha
        · exact ih _ R hnilstack hb2 hn2 t2 hm
      · simp only [stripDocAux, if_neg h3] at h2
        rcases List.mem_cons.mp h2 with rfl | hm
        · exact ha
        · exact ih _ R hwnstack hb2 hn2 t2 hm
    | waitString stack =>
      by_cases h1 : a.typ = Ttyp.NL ∨ a.typ = Ttyp.COMMENT
      · simp only [stripDocAux, if_pos h1] at h2
        rcases List.mem_cons.mp h2 with rfl | hm
        · exact ha
        · exact ih _ R hs hb2 hn2 t2 hm
      · by_cases h2c : a.typ = Ttyp.DEDENT ∨ a.typ = Ttyp.INDENT ∨ a.typ = Ttyp.STRING
        · simp only [stripDocAux, if_neg h1, if_pos h2c] at h2
          have hs2 : ∀ u ∈ stackOf (SDState.waitString (stack ++ [a])), u.erow ≤ R := by
            intro u hu
            simp only [stackOf] at hu
            rcases List.mem_append.mp hu with hu | hu
            · exact hs u hu
            · rcases List.mem_singleton.mp hu with rfl
              exact ha
          exact ih _ R hs2 hb2 hn2 t2 h2
        · by_cases h3 : a.typ = Ttyp.NEWLINE
          · simp only [stripDocAux, if_neg h1, if_neg h2c, if_pos h3] at h2
            rcases List.mem_append.mp h2 with h2b | hrec
            · rcases List.mem_append.mp h2b with hnl | hre
              · rcases List.mem_map.mp hnl with ⟨i, hi, rfl⟩
                have hi2 := List.mem_range'_1.mp hi
                have : i ≤ a.erow := by omega
                exact le_trans this ha
              · rcases List.mem_map.mp hre with ⟨u, hu, rfl⟩
                have : a.erow < R := hn a (List.mem_cons_self _ _) h3
                simpa using this
            · exact ih _ R hnilstack hb2 hn2 t2 hrec
          · simp only [stripDocAux, if_neg h1, if_neg h2c, if_neg h3] at h2
            rcases List.mem_append.mp h2 with hfl | hrec
            · rcases List.mem_append.mp hfl with hu | hu
              · exact hs t2 hu
              · rcases List.mem_singleton.mp hu with rfl
                exact ha
            · exact ih _ R hwnstack hb2 hn2 t2 hrec

theorem sd_last : ∀ (l : List Tok) (st : SDState) (e : Tok), e.typ = Ttyp.ENDMARKER →
    ∃ pre, stripDocAux st (l ++ [e]) = pre ++ [e] := by
  intro l
  induction l with
  | nil =>
    intro st e he
    cases st with
    | waitNewline =>
      have h3 : ¬ e.typ = Ttyp.NEWLINE := by rw [he]; simp
      exact ⟨[], by simp [stripDocAux, h3]⟩
    | waitString stack =>
      have h1 : ¬ (e.typ = Ttyp.NL ∨ e.typ = Ttyp.COMMENT) := by rw [he]; simp
      have h2 : ¬ (e.typ = Ttyp.DEDENT ∨ e.typ = Ttyp.INDENT ∨ e.typ = Ttyp.STRING) := by
        rw [he]; simp
      have h3 : ¬ e.typ = Ttyp.NEWLINE := by rw [he]; simp
      exact ⟨stack, by simp [stripDocAux, h1, h2, h3]⟩
  | cons a rest ih =>
    intro st e he
    cases st with
    | waitNewline =>
      by_cases h3 : a.typ = Ttyp.NEWLINE
      · rcases ih (SDState.waitString []) e he with ⟨pre, hpre⟩
        exact ⟨a :: pre, by simp [stripDocAux, h3, hpre]⟩
      · rcases ih SDState.waitNewline e he with ⟨pre, hpre⟩
        exact ⟨a :: pre, by simp [stripDocAux, h3, hpre]⟩
    | waitString stack =>
      by_cases h1 : a.typ = Ttyp.NL ∨ a.typ = Ttyp.COMMENT
      · rcases ih (SDState.waitString stack) e he with ⟨pre, hpre⟩
        exact ⟨a :: pre, by simp [stripDocAux, h1, hpre]⟩
      · by_cases h2 : a.typ = Ttyp.DEDENT ∨ a.typ = Ttyp.INDENT ∨ a.typ = Ttyp.STRING
        · rcases ih (SDState.waitString (stack ++ [a])) e he with ⟨pre, hpre⟩
          exact ⟨pre, by simp [stripDocAux, h1, h2, hpre]⟩
        · by_cases h3 : a.typ = Ttyp.NEWLINE
          · rcases ih (SDState.waitString []) e he with ⟨pre, hpre⟩
            refine ⟨(List.range' ((stack ++ [a]).headD (nlTok 0)).srow
                ((a.erow + 1) - ((stack ++ [a]).headD (nlTok 0)).srow)).map nlTok
              ++ (((stack ++ [a]).filter
                    (fun u => u.typ = Ttyp.DEDENT ∨ u.typ = Ttyp.INDENT)).map
                  (fun u => { u with srow := a.erow + 1, erow := a.erow + 1 })) ++ pre, ?_⟩
            simp only [stripDocAux, if_neg h1, if_neg h2, if_pos h3, hpre]
            simp [List.append_assoc, hpre]
          · rcases ih SDState.waitNewline e he with ⟨pre, hpre⟩
            refine ⟨(stack ++ [a]) ++ pre, ?_⟩
            simp only [stripDocAux, if_neg h1, if_neg h2, if_neg h3, hpre]
            simp [List.append_assoc, hpre]

theorem idSeq_nlToks (li : List Nat) : idSeq (li.map nlTok) = [] := by
  induction li with
  | nil => rfl
  | cons i r ih => simp [idSeq_cons, nlTok, ih]

theorem idSeq_reemit (l : List Tok) (e : Nat) :
    idSeq ((l.filter (fun u => u.typ = Ttyp.DEDENT ∨ u.typ = Ttyp.INDENT)).map
      (fun u => { u with srow := e, erow := e })) = idSeq l := by
  induction l with
  | nil => rfl
  | cons a r ih =>
    by_cases h : a.typ = Ttyp.DEDENT ∨ a.typ = Ttyp.INDENT
    · rw [List.filter_cons_of_pos (by simp [h]), List.map_cons, idSeq_cons, idSeq_cons, ih]
    · rw [List.filter_cons_of_neg (by simp [h]), ih, idSeq_cons]
      have hnid : ¬ (a.typ = Ttyp.INDENT ∨ a.typ = Ttyp.DEDENT) := by tauto
      rw [if_neg hnid]
      simp

theorem sd_idSeq : ∀ (l : List Tok) (st : SDState) (e : Tok), e.typ = Ttyp.ENDMARKER →
    idSeq (stripDocAux st (l ++ [e])) = idSeq (stackOf st) ++ idSeq (l ++ [e]) := by
  intro l
  induction l with
  | nil =>
    intro st e he
    have hnid : ¬ (e.typ = Ttyp.INDENT ∨ e.typ = Ttyp.DEDENT) := by rw [he]; simp
    cases st with
    | waitNewline =>
      have h3 : ¬ e.typ = Ttyp.NEWLINE := by rw [he]; simp
      simp [stripDocAux, h3, stackOf, idSeq_cons, hnid]
    | waitString stack =>
      have h1 : ¬ (e.typ = Ttyp.NL ∨ e.typ = Ttyp.COMMENT) := by rw [he]; simp
      have h2 : ¬ (e.typ = Ttyp.DEDENT ∨ e.typ = Ttyp.INDENT ∨ e.typ = Ttyp.STRING) := by
        rw [he]; simp
      have h3 : ¬ e.typ = Ttyp.NEWLINE := by rw [he]; simp
      simp [stripDocAux, h1, h2, h3, stackOf, idSeq_append, idSeq_cons, hnid]
  | cons a rest ih =>
    intro st e he
    cases st with
    | waitNewline =>
      by_cases h3 : a.typ = Ttyp.NEWLINE
      · have hnid : ¬ (a.typ = Ttyp.INDENT ∨ a.typ = Ttyp.DEDENT) := by rw [h3]; simp
        simp only [stripDocAux, if_pos h3, List.cons_append, List.append_eq]
        rw [idSeq_cons, idSeq_cons, ih (SDState.waitString []) e he]
        simp [stackOf, hnid]
      · simp only [stripDocAux, if_neg h3, List.cons_append, List.append_eq]
        rw [idSeq_cons, idSeq_cons, ih SDState.waitNewline e he]
        simp [stackOf]
    | waitString stack =>
      by_cases h1 : a.typ = Ttyp.NL ∨ a.typ = Ttyp.COMMENT
      · have hnid : ¬ (a.typ = Ttyp.INDENT ∨ a.typ = Ttyp.DEDENT) := by
          rcases h1 with h1 | h1 <;> rw [h1] <;> simp
        simp only [stripDocAux, if_pos h1, List.cons_append, List.append_eq]
        rw [idSeq_cons, idSeq_cons, ih (SDState.waitString stack) e he]
        simp [stackOf, hnid]
      · by_cases h2 : a.typ = Ttyp.DEDENT ∨ a.typ = Ttyp.INDENT ∨ a.typ = Ttyp.STRING
        · simp only [stripDocAux, if_neg h1, if_pos h2, List.cons_append, List.append_eq]
          rw [ih (SDState.waitString (stack ++ [a])) e he]
          simp only [stackOf]
          rw [idSeq_append, idSeq_cons a (rest ++ [e]), idSeq_cons a ([] : List Tok)]
          simp [List.append_assoc]
        · by_cases h3 : a.typ = Ttyp.NEWLINE
          · have hnid : ¬ (a.typ = Ttyp.INDENT ∨ a.typ = Ttyp.DEDENT) := by rw [h3]; simp
            simp only [stripDocAux, if_neg h1, if_neg h2, if_pos h3, List.cons_append, List.append_eq]
            rw [idSeq_append, idSeq_append, idSeq_nlToks, idSeq_reemit,
              ih (SDState.waitString []) e he]
            simp only [stackOf, idSeq_append, idSeq_nil]
            rw [idSeq_cons a (rest ++ [e]), if_neg hnid]
            simp [idSeq_cons, hnid, idSeq_append]
          · have hnid : ¬ (a.typ = Ttyp.INDENT ∨ a.typ = Ttyp.DEDENT) := by
              push_neg at h2
              simp [h2.2.1, h2.1]
            simp only [stripDocAux, if_neg h1, if_neg h2, if_neg h3, List.cons_append, List.append_eq]
            rw [idSeq_append, idSeq_append, ih SDState.waitNewline e he]
            simp only [stackOf, idSeq_nil]
            rw [idSeq_cons a (rest ++ [e])]
            simp [idSeq_cons, hnid, List.append_assoc]

theorem balAux_idSeq : ∀ (l : List Tok) (d : Nat),
    balAux (l.map Tok.typ) d = balAux (idSeq l) d := by
  intro l
  induction l with
  | nil => intro d; rfl
  | cons a r ih =>
    intro d
    by_cases hI : a.typ = Ttyp.INDENT
    · simp only [List.map_cons, balAux, hI, if_pos rfl]
      rw [idSeq_cons]
      simp only [hI, true_or, if_true, List.singleton_append, balAux]
      simp [ih]
    · by_cases hD : a.typ = Ttyp.DEDENT
      · simp only [List.map_cons, balAux, hD]
        rw [idSeq_cons]
        simp only [hD, or_true, if_true, List.singleton_append, balAux]
        have hID : ¬ Ttyp.DEDENT = Ttyp.INDENT := by simp
        simp only [hID, if_false, if_pos rfl]
        cases d with
        | zero => simp [hI]
        | succ d2 => simp [hI, ih]
      · simp only [List.map_cons, balAux, hI, hD]
        rw [idSeq_cons]
        have hnid : ¬ (a.typ = Ttyp.INDENT ∨ a.typ = Ttyp.DEDENT) := by simp [hI, hD]
        simp [hnid, hI, hD, ih]

/-- Correspondence between a token and its reindented form: type, rows, and
(except for INDENT, whose text is rebuilt) the token text are unchanged. -/
def tokSim (t1 t2 : Tok) : Prop :=
  t2.typ = t1.typ ∧ t2.srow = t1.srow ∧ t2.erow = t1.erow ∧
  (t1.typ ≠ Ttyp.INDENT → t2.s = t1.s)

theorem ri_forall2 : ∀ (l : List Tok) (ol : List Nat) (o n : Nat) (out : List Tok),
    reindentAux ol o n l = some out → List.Forall₂ tokSim l out := by
  intro l
  induction l with
  | nil =>
    intro ol o n out h
    simp only [reindentAux, Option.some.injEq] at h
    rw [← h]
    exact List.Forall₂.nil
  | cons t rest ih =>
    intro ol o n out h
    by_cases hI : t.typ = Ttyp.INDENT
    · simp only [reindentAux, if_pos hI] at h
      rcases Option.map_eq_some'.mp h with ⟨out2, hrec, rfl⟩
      exact List.Forall₂.cons ⟨rfl, rfl, rfl, fun hc => absurd hI hc⟩ (ih _ _ _ _ hrec)
    · by_cases hD : t.typ = Ttyp.DEDENT
      · cases ol with
        | nil => simp [reindentAux, hI, hD] at h
        | cons l0 ls =>
          simp only [reindentAux, if_neg hI, if_pos hD] at h
          rcases Option.map_eq_some'.mp h with ⟨out2, hrec, rfl⟩
          exact List.Forall₂.cons ⟨rfl, rfl, rfl, fun _ => rfl⟩ (ih _ _ _ _ hrec)
      · simp only [reindentAux, if_neg hI, if_neg hD] at h
        rcases Option.map_eq_some'.mp h with ⟨out2, hrec, rfl⟩
        exact List.Forall₂.cons ⟨rfl, rfl, rfl, fun _ => rfl⟩ (ih _ _ _ _ hrec)

theorem ri_isSome : ∀ (l : List Tok) (ol : List Nat) (o n : Nat),
    balAux (l.map Tok.typ) ol.length = true →
    (reindentAux ol o n l).isSome = true := by
  intro l
  induction l with
  | nil => intro ol o n _; simp [reindentAux]
  | cons t rest ih =>
    intro ol o n hb
    by_cases hI : t.typ = Ttyp.INDENT
    · have hb2 : balAux (rest.map Tok.typ) (ol.length + 1) = true := by
        simpa [balAux, hI] using hb
      have hrec := ih (o :: ol) t.s.length (n + 1) (by simpa using hb2)
      simp only [reindentAux, if_pos hI]
      simpa [Option.isSome_map] using hrec
    · by_cases hD : t.typ = Ttyp.DEDENT
      · cases ol with
        | nil => simp [balAux, hI, hD] at hb
        | cons l0 ls =>
          have hb2 : balAux (rest.map Tok.typ) ls.length = true := by
            simpa [balAux, hI, hD] using hb
          have hrec := ih ls l0 (n - 1) hb2
          simp only [reindentAux, if_neg hI, if_pos hD]
          simpa [Option.isSome_map] using hrec
      · have hb2 : balAux (rest.map Tok.typ) ol.length = true := by
          simpa [balAux, hI, hD] using hb
        have hrec := ih ol o n hb2
        simp only [reindentAux, if_neg hI, if_neg hD]
        simpa [Option.isSome_map] using hrec

theorem forall2_mem_left {R : Tok → Tok → Prop} :
    ∀ {l out : List Tok}, List.Forall₂ R l out → ∀ t ∈ l, ∃ t2 ∈ out, R t t2 := by
  intro l out h
  induction h with
  | nil => intro t ht; simp at ht
  | cons hr _ ih =>
    intro t ht
    rcases List.mem_cons.mp ht with rfl | hm
    · exact ⟨_, by simp, hr⟩
    · rcases ih t hm with ⟨t2, hmem, hR⟩
      exact ⟨t2, by simp [hmem], hR⟩

theorem forall2_mem_right {R : Tok → Tok → Prop} :
    ∀ {l out : List Tok}, List.Forall₂ R l out → ∀ t2 ∈ out, ∃ t1 ∈ l, R t1 t2 := by
  intro l out h
  induction h with
  | nil => intro t2 ht; simp at ht
  | cons hr _ ih =>
    intro t2 ht
    rcases List.mem_cons.mp ht with rfl | hm
    · exact ⟨_, by simp, hr⟩
    · rcases ih t2 hm with ⟨t1, hmem, hR⟩
      exact ⟨t1, by simp [hmem], hR⟩

theorem forall2_last {R : Tok → Tok → Prop} :
    ∀ (pre : List Tok) (e : Tok) {l out : List Tok}, List.Forall₂ R l out →
      l = pre ++ [e] → ∃ pre2 t2, out = pre2 ++ [t2] ∧ R e t2 := by
  intro pre
  induction pre with
  | nil =>
    intro e l out h hl
    subst hl
    cases h with
    | cons hr hrest =>
      cases hrest with
      | nil => exact ⟨[], _, rfl, hr⟩
  | cons a pr ih =>
    intro e l out h hl
    subst hl
    cases h with
    | cons hr hrest =>
      rcases ih e hrest rfl with ⟨pre2, t2, rfl, hR⟩
      exact ⟨_ :: pre2, t2, rfl, hR⟩

/-- C9: for every well-formed token stream, `minimize_source` succeeds, its
output spans exactly the same number of lines as its input (comments after
line 2 are dropped without removing their lines, docstrings are replaced by
blank lines), and every comment starting on line 1 or 2 survives with its
text and line intact. -/
theorem minimize_source_line_count (ts : List Tok) (hwf : wfStream ts = true) :
    ∃ out, minimize_source_tokens ts = some out ∧
      maxErow out = maxErow ts ∧
      ∀ t ∈ ts, t.typ = Ttyp.COMMENT → t.srow ≤ 2 →
        ∃ t2 ∈ out, t2.typ = Ttyp.COMMENT ∧ t2.s = t.s ∧ t2.srow = t.srow := by
  obtain ⟨hne, hlast, hpw, hnlt, hbal⟩ := wfStream_spec ts hwf
  have hbound : ∀ t ∈ ts, t.erow ≤ (lastTok ts).erow := pairwise_le_last ts hpw
  have hsplit : ts.dropLast ++ [lastTok ts] = ts := dropLast_append_lastTok hne
  have hA_bound : ∀ t2 ∈ strip_comments ts, t2.erow ≤ (lastTok ts).erow := by
    intro t2 h2
    rcases sc_shape ts none 0 t2 h2 with ⟨t1, hm, _, her⟩
    rw [her]
    exact hbound t1 hm
  have hA_nl : ∀ t2 ∈ strip_comments ts, t2.typ = Ttyp.NEWLINE →
      t2.erow < (lastTok ts).erow := by
    intro t2 h2 htyp
    rcases sc_shape ts none 0 t2 h2 with ⟨t1, hm, hty, her⟩
    rw [her]
    exact hnlt t1 hm (by rw [← hty, htyp])
  have hA_last : ∃ preA, strip_comments ts = preA ++ [lastTok ts] := by
    have h := sc_last ts.dropLast none 0 (lastTok ts) hlast
    rw [hsplit] at h
    exact h
  have hA_id : idSeq (strip_comments ts) = idSeq ts := sc_idSeq ts none 0
  obtain ⟨preA, hpreA⟩ := hA_last
  have hB_last : ∃ preB, strip_docstrings (strip_comments ts) = preB ++ [lastTok ts] := by
    rw [strip_docstrings, hpreA]
    exact sd_last preA _ _ hlast
  have hB_bound : ∀ t2 ∈ strip_docstrings (strip_comments ts),
      t2.erow ≤ (lastTok ts).erow := by
    intro t2 h2
    exact sd_rows (strip_comments ts) (SDState.waitString []) _
      (by intro u hu; simp [stackOf] at hu) hA_bound hA_nl t2 h2
  have hB_id : idSeq (strip_docstrings (strip_comments ts)) = idSeq ts := by
    rw [strip_docstrings, hpreA, sd_idSeq preA _ _ hlast]
    have h2 : idSeq (preA ++ [lastTok ts]) = idSeq ts := by rw [← hpreA, hA_id]
    simp [stackOf, h2]
  have hbalB : balAux ((strip_docstrings (strip_comments ts)).map Tok.typ) 0 = true := by
    rw [balAux_idSeq, hB_id, ← balAux_idSeq]
    exact hbal
  have hsome := ri_isSome (strip_docstrings (strip_comments ts)) [] 0 0 (by simpa using hbalB)
  obtain ⟨out, hout⟩ := Option.isSome_iff_exists.mp hsome
  have hsim := ri_forall2 _ [] 0 0 out hout
  refine ⟨out, ?_, ?_, ?_⟩
  · simpa [minimize_source_tokens, reindent] using hout
  · have hout_bound : ∀ t2 ∈ out, t2.erow ≤ (lastTok ts).erow := by
      intro t2 h2
      rcases forall2_mem_right hsim t2 h2 with ⟨t1, hm, hR⟩
      rw [hR.2.2.1]
      exact hB_bound t1 hm
    obtain ⟨preB, hpreB⟩ := hB_last
    rcases forall2_last preB (lastTok ts) hsim hpreB with ⟨pre2, t2, houtsplit, hR⟩
    have ht2mem : t2 ∈ out := by rw [houtsplit]; simp
    have h1 : maxErow out = (lastTok ts).erow := maxErow_eq_of ht2mem hR.2.2.1 hout_bound
    have h2 : maxErow ts = (lastTok ts).erow :=
      maxErow_eq_of (lastTok_mem hne) rfl hbound
    rw [h1, h2]
  · intro t ht htyp hrow
    have h1 := sc_comment_mem ts none 0 t ht htyp hrow
    have h2 := sd_comment_mem (strip_comments ts) (SDState.waitString []) t h1 htyp
    rcases forall2_mem_left hsim t h2 with ⟨t2, hmem, hR⟩
    refine ⟨t2, hmem, ?_, ?_, hR.2.1⟩
    · rw [hR.1, htyp]
    · exact hR.2.2.2 (by rw [htyp]; simp)

/-- A concrete well-formed token stream: hashbang comment on line 1, a
statement on line 2, a comment on line 3, end marker on line 4. -/
def exToks : List Tok :=
  [⟨Ttyp.COMMENT, ['#', '!', 'x'], 1, 0, 1, 3, []⟩,
   ⟨Ttyp.NL, ['\n'], 1, 3, 1, 4, []⟩,
   ⟨Ttyp.OTHER, ['y'], 2, 0, 2, 1, []⟩,
   ⟨Ttyp.OTHER, ['='], 2, 2, 2, 3, []⟩,
   ⟨Ttyp.OTHER, ['1'], 2, 4, 2, 5, []⟩,
   ⟨Ttyp.NEWLINE, ['\n'], 2, 5, 2, 6, []⟩,
   ⟨Ttyp.COMMENT, ['#', 'c'], 3, 0, 3, 2, []⟩,
   ⟨Ttyp.NL, ['\n'], 3, 2, 3, 3, []⟩,
   ⟨Ttyp.ENDMARKER, [], 4, 0, 4, 0, []⟩]

/-- Witness for C9 at the concrete stream. -/
theorem minimize_source_line_count_witness :
    wfStream exToks = true ∧
    (∃ out, minimize_source_tokens exToks = some out ∧
      maxErow out = maxErow exToks ∧
      ∀ t ∈ exToks, t.typ = Ttyp.COMMENT → t.srow ≤ 2 →
        ∃ t2 ∈ out, t2.typ = Ttyp.COMMENT ∧ t2.s = t.s ∧ t2.srow = t.srow) :=
  ⟨by decide, minimize_source_line_count exToks (by decide)⟩

end Mitogen
